import Mathlib

/-!
Verification of the `fusil_cereggii_plugin` repository against its
natural-language specification.

The file shallowly embeds the parts of the plugin the claims are about:

* `samples/tricky_colliding_keys.py` — the colliding-key generator
  `generate_colliding_keys` (claims C1, C2, C8);
* `samples/tricky_concurrency_hell.py` — the join structure of
  `fast_iter_vs_mutation_race` and the verification phase of
  `dogpile_on_atomicint` (claims C3, C4);
* `samples/tricky_recursive_cereggii.py` — the join structure of
  `race_condition_ref_vs_gc` (claim C3);
* `samples/tricky_atomicdict.py` — the `UnstableHash` adversarial object
  (claim C5);
* `samples/tricky_weird_cereggii.py` — the `super_caller_abuse` and
  `make_wrong_typer` behaviors and the variant-generation loop building
  `tricky_weird_cereggii_objects` (claims C6, C7, C10);
* `samples/tricky_stateful_scenarios.py` — `scenario_random_ops`
  (claim C9).

The subject library (`cereggii`) is external and opaque; wherever one of its
operations is consumed (its `_rehash`, the `AtomicDict` operations, class
instantiation), the embedding takes that operation as an abstract parameter,
exactly as the spec treats the subject as out of scope.
-/

/-! ## Colliding-key generator (`tricky_colliding_keys.py`)

`generate_colliding_keys(log_size, num_buckets_to_fill, keys_per_bucket)`
iterates candidates `i` in `range(2**24)`, computes
`bucket = rehash(i) >> (64 - log_size)`, appends `i` to `results[bucket]`
while `bucket < num_buckets_to_fill` and the bucket is under quota, and
breaks once all targeted buckets are full.  `results` is a
`defaultdict(list)`, so merely reading `results[bucket]` creates an empty
entry; `filled_buckets` is the set of buckets that received at least one key.
The subject's `_rehash` is abstracted as a parameter `rehash : Nat → Nat`. -/

/-- Lookup in a bucket-to-keys association list (first match), mirroring a
Python dict read. -/
def alistLookup (l : List (Nat × List Nat)) (b : Nat) : Option (List Nat) :=
  match l with
  | [] => none
  | (k, v) :: rest => if k = b then some v else alistLookup rest b

/-- Reading `results[bucket]` on a `defaultdict(list)`: if the key is absent a
fresh empty list is inserted at the end (Python dict insertion order). -/
def alistTouch (l : List (Nat × List Nat)) (b : Nat) : List (Nat × List Nat) :=
  match l with
  | [] => [(b, [])]
  | (k, v) :: rest => if k = b then (k, v) :: rest else (k, v) :: alistTouch rest b

/-- `results[bucket].append(i)` on a `defaultdict(list)`: append `i` to the
entry for `b`, creating the entry (at the end) if it is absent. -/
def alistAppend (l : List (Nat × List Nat)) (b i : Nat) : List (Nat × List Nat) :=
  match l with
  | [] => [(b, [i])]
  | (k, v) :: rest => if k = b then (k, v ++ [i]) :: rest else (k, v) :: alistAppend rest b i

/-- State of the generation loop: the `results` mapping (insertion-ordered
association list) and the `filled_buckets` set (insertion-ordered, duplicate
free by construction). -/
structure GenState where
  results : List (Nat × List Nat)
  filled : List Nat
deriving Repr, DecidableEq

/-- The bucket list currently stored for bucket `b` (empty if absent). -/
def bucketListOf (s : GenState) (b : Nat) : List Nat :=
  (alistLookup s.results b).getD []

/-- The hash-to-bucket computation of the loop body:
`bucket = _DUMMY_DICT._rehash(i) >> (64 - log_size)`. -/
def bucketOf (rehash : Nat → Nat) (logSize i : Nat) : Nat :=
  rehash i >>> (64 - logSize)

/-- One iteration of the candidate loop body (the part before the early-stop
check): compute the bucket and, if it is targeted, read `results[bucket]`
(which creates the entry) and append the candidate while under quota, also
recording the bucket in `filled_buckets`. -/
def genStep (rehash : Nat → Nat) (logSize numBuckets keysPer : Nat)
    (s : GenState) (i : Nat) : GenState :=
  let bucket := bucketOf rehash logSize i
  if bucket < numBuckets then
    if (bucketListOf s bucket).length < keysPer then
      { results := alistAppend s.results bucket i
        filled := if bucket ∈ s.filled then s.filled else s.filled.concat bucket }
    else
      { results := alistTouch s.results bucket, filled := s.filled }
  else s

/-- The `all_full` generator expression:
`all(len(v) >= keys_per_bucket for k, v in results.items() if k < num_buckets_to_fill)`. -/
def allFull (numBuckets keysPer : Nat) (l : List (Nat × List Nat)) : Bool :=
  l.all fun kv => !decide (kv.1 < numBuckets) || decide (keysPer ≤ kv.2.length)

/-- The early-stop test run after each candidate:
`len(filled_buckets) >= num_buckets_to_fill` and `all_full`. -/
def stopNow (numBuckets keysPer : Nat) (s : GenState) : Bool :=
  decide (numBuckets ≤ s.filled.length) && allFull numBuckets keysPer s.results

/-- The candidate loop: process candidates `i, i+1, ...` for `fuel` steps,
breaking when the early-stop test succeeds.  The returned `Bool` is `true`
exactly when the loop ended with `break` (so the `for`-`else` warning branch
did not run). -/
def genLoopAux (rehash : Nat → Nat) (logSize numBuckets keysPer : Nat) :
    Nat → Nat → GenState → GenState × Bool
  | 0, _, s => (s, false)
  | fuel + 1, i, s =>
    let s1 := genStep rehash logSize numBuckets keysPer s i
    if stopNow numBuckets keysPer s1 then (s1, true)
    else genLoopAux rehash logSize numBuckets keysPer fuel (i + 1) s1

/-- The search ceiling of the candidate loop: `for i in range(2**24)`. -/
def SEARCH_CEILING : Nat := 2 ^ 24

/-- Result of `generate_colliding_keys`: the returned `dict(results)` mapping
together with whether the warning branch (`for`-`else`) was reached because
the search range was exhausted without filling all buckets. -/
structure CollidingKeysResult where
  results : List (Nat × List Nat)
  warned : Bool
deriving Repr, DecidableEq

/-- `generate_colliding_keys(log_size, num_buckets_to_fill, keys_per_bucket)`
with the subject's `_rehash` abstracted as a parameter, over the full
`range(2**24)` candidate search.  The defaults in the source are
`num_buckets_to_fill = 16` and `keys_per_bucket = 32`. -/
def generate_colliding_keys (rehash : Nat → Nat)
    (log_size num_buckets_to_fill keys_per_bucket : Nat) : CollidingKeysResult :=
  let r := genLoopAux rehash log_size num_buckets_to_fill keys_per_bucket
    SEARCH_CEILING 0 ⟨[], []⟩
  ⟨r.1.results, !r.2⟩

/-- The bucket list stored for `b` in a returned mapping (empty if absent). -/
def resultBucket (r : CollidingKeysResult) (b : Nat) : List Nat :=
  (alistLookup r.results b).getD []

/-- A run saturated its target: every targeted bucket holds at least the
per-bucket quota of keys. -/
def saturatedRun (numBuckets keysPer : Nat) (s : GenState) : Prop :=
  ∀ b, b < numBuckets → keysPer ≤ (bucketListOf s b).length

/-- Some bucket of the state holds at least one key. -/
def hasKey (s : GenState) : Prop :=
  ∃ b, bucketListOf s b ≠ []

/-- Loop invariant of the candidate search, at the point where candidate `i`
is the next to be examined. -/
def GenInv (rehash : Nat → Nat) (logSize numBuckets keysPer i : Nat)
    (s : GenState) : Prop :=
  (s.results.map Prod.fst).Nodup ∧
  s.filled.Nodup ∧
  (∀ b, alistLookup s.results b = none ∨ b < numBuckets) ∧
  (∀ b, (bucketListOf s b).length ≤ keysPer ∧
    (bucketListOf s b).Pairwise (· < ·) ∧
    ∀ k ∈ bucketListOf s b, k < i ∧ bucketOf rehash logSize k = b) ∧
  (∀ b ∈ s.filled, b < numBuckets) ∧
  (∀ b, b ∈ s.filled ↔ bucketListOf s b ≠ [])

/-! ## Worker joins (`tricky_concurrency_hell.py`, `tricky_recursive_cereggii.py`)

The orchestration-layer claims about joins are settled against the static
join structure of each scenario: the sequence of `Thread.join` calls it
performs and the timeout argument (if any) each call passes. -/

/-- A `threading.Thread.join` call as issued by a scenario: either with an
explicit `timeout=` bound (in seconds) or the default unbounded form. -/
inductive JoinCall where
  | withTimeout (seconds : ℚ)
  | unbounded
deriving Repr, DecidableEq

/-- Whether a join call carries a bounding timeout. -/
def JoinCall.bounded : JoinCall → Bool
  | .withTimeout _ => true
  | .unbounded => false

/-- The join calls issued by `fast_iter_vs_mutation_race`: it builds
`all_threads = iter_threads + chaos_threads` and runs `t.join()` (no timeout
argument) on each. -/
def fast_iter_vs_mutation_race_joins (num_iter_threads num_chaos_threads : Nat) :
    List JoinCall :=
  List.replicate num_iter_threads JoinCall.unbounded ++
    List.replicate num_chaos_threads JoinCall.unbounded

/-- The join calls issued by `race_condition_ref_vs_gc`, in order:
`g_thread.join(timeout=1.0)` then `h_thread.join(timeout=1.0)`. -/
def race_condition_ref_vs_gc_joins : List JoinCall :=
  [JoinCall.withTimeout 1, JoinCall.withTimeout 1]

/-! ## `dogpile_on_atomicint` (`tricky_concurrency_hell.py`)

The scenario spawns `num_threads` workers, each performing `ops_per_thread`
calls of `counter.increment_and_get()`, joins them, and then verifies the
final counter value.  The counter is the external subject, so the observed
final value `actual` is a parameter of the verification phase. -/

/-- The increment operations issued by one worker of `dogpile_on_atomicint`:
`for _ in range(ops_per_thread): counter.increment_and_get()`. -/
def dogpile_worker_ops (ops_per_thread : Nat) : List Unit :=
  List.replicate ops_per_thread ()

/-- All increment operations issued by the scenario, tagged with the issuing
worker's `thread_id` (workers are spawned for `thread_id in range(num_threads)`). -/
def dogpile_all_ops (num_threads ops_per_thread : Nat) : List (Nat × Unit) :=
  (List.range num_threads).flatMap fun tid =>
    (dogpile_worker_ops ops_per_thread).map fun u => (tid, u)

/-- Outcome of the scenario's verification phase: the computed expectation,
whether the deviation warning was printed, and the returned survived flag. -/
structure DogpileOutcome where
  expected : Int
  warned : Bool
  survived : Bool
deriving Repr, DecidableEq

/-- The post-join verification of `dogpile_on_atomicint`:
`expected = num_threads * ops_per_thread`, a warning is printed when
`actual != expected`, and `True` is returned unconditionally. -/
def dogpile_on_atomicint_report (num_threads ops_per_thread : Nat)
    (actual : Int) : DogpileOutcome :=
  { expected := (num_threads : Int) * (ops_per_thread : Int)
    warned := decide (actual ≠ (num_threads : Int) * (ops_per_thread : Int))
    survived := true }

/-! ## `UnstableHash` (`tricky_atomicdict.py`)

`UnstableHash.__init__` stores `next(_unstable_hash_counter)` as
`_initial_hash`; `__hash__` returns a fresh `next(_unstable_hash_counter)`
on every call; `__eq__` compares the stable `_initial_hash` fields.  The
module-level `itertools.count()` is threaded explicitly as a `Nat` state. -/

/-- An `UnstableHash` instance: only the `_initial_hash` field is stored. -/
structure UnstableHash where
  _initial_hash : Nat
deriving Repr, DecidableEq

/-- `UnstableHash()` constructor: draws the next counter value as the stable
identity and advances the shared counter. -/
def mkUnstableHash (counter : Nat) : UnstableHash × Nat :=
  (⟨counter⟩, counter + 1)

/-- `UnstableHash.__hash__`: returns `next(_unstable_hash_counter)` — the
current counter value — and advances the counter. -/
def UnstableHash.hashCall (_o : UnstableHash) (counter : Nat) : Nat × Nat :=
  (counter, counter + 1)

/-- `UnstableHash.__eq__` restricted to `UnstableHash` arguments (the
`isinstance` guard): compares the stable `_initial_hash` fields and reads no
mutable state. -/
def UnstableHash.eqCall (a b : UnstableHash) : Bool :=
  a._initial_hash == b._initial_hash

/-- A call against an `UnstableHash` object: a `hash(o)` request or an
`a == b` request. -/
inductive UnstableCall where
  | hashOf (o : UnstableHash)
  | eqOf (a b : UnstableHash)

/-- Result of one such call. -/
inductive UnstableCallResult where
  | hashed (value : Nat)
  | equalled (value : Bool)
deriving Repr, DecidableEq

/-- Run a sequence of hash/equality calls, threading the shared counter, and
collect the results in order. -/
def runUnstableCalls : List UnstableCall → Nat → List UnstableCallResult × Nat
  | [], c => ([], c)
  | .hashOf o :: rest, c =>
    let r := o.hashCall c
    let rs := runUnstableCalls rest r.2
    (.hashed r.1 :: rs.1, rs.2)
  | .eqOf a b :: rest, c =>
    let rs := runUnstableCalls rest c
    (.equalled (a.eqCall b) :: rs.1, rs.2)

/-! ## `super_caller_abuse` (`tricky_weird_cereggii.py`)

The behavior looks up the inherited operation (`getattr(super(...), name,
None)`); when it is callable it calls it twice with the original arguments
and once with wrong arity and keyword arguments, all inside a
`try`/`except Exception` whose handler returns the caught exception object;
if nothing was raised it returns `None`.  The inherited operation belongs to
the opaque subject, so it is abstracted as an optional oracle indexed by the
call number, and its possible exceptions as an abstract type `ε`. -/

/-- The argument shape of one call made by `super_caller_abuse`: the original
arguments forwarded twice, then the deliberately wrong
`(9999, "extra_arg", bogus_kwarg=True)` call. -/
inductive AbuseArgs where
  | originalArgs
  | wrongArity
deriving Repr, DecidableEq

/-- A Python value as returned by the behavior: the `None` fallthrough or a
caught exception object returned as the result. -/
inductive AbuseReturn (ε : Type) where
  | noneVal
  | excVal (e : ε)
deriving Repr, DecidableEq

/-- The `try` body of `super_caller_abuse`: skip everything when the inherited
operation is missing or not callable, otherwise perform the three calls in
order, stopping at the first raised exception. -/
def superAbuseBody {ε α : Type} (super_method : Option (Nat → AbuseArgs → Except ε α)) :
    Except ε Unit :=
  match super_method with
  | none => Except.ok ()
  | some f =>
    match f 0 AbuseArgs.originalArgs with
    | Except.error e => Except.error e
    | Except.ok _ =>
      match f 1 AbuseArgs.originalArgs with
      | Except.error e => Except.error e
      | Except.ok _ =>
        match f 2 AbuseArgs.wrongArity with
        | Except.error e => Except.error e
        | Except.ok _ => Except.ok ()

/-- `super_caller_abuse` as the overridden method's full computation: the
`except Exception` handler turns a raised `e` into the return value `e`, and
the fallthrough returns `None`.  The outer `Except` layer is the behavior's
own raising channel — an `Except.error` here would mean an exception
propagating to the caller. -/
def super_caller_abuse {ε α : Type} (super_method : Option (Nat → AbuseArgs → Except ε α)) :
    Except ε (AbuseReturn ε) :=
  match superAbuseBody super_method with
  | Except.error e => Except.ok (AbuseReturn.excVal e)
  | Except.ok _ => Except.ok AbuseReturn.noneVal

/-! ## Variant-generation loop (`tricky_weird_cereggii.py`)

The loop iterates `TARGET_METHODS` (base class → method names) and
`malicious_behaviors` (behavior names, the last one present only when the
optional `weird_classes` dependency imported), synthesizes a variant class
per combination, tries to instantiate it, skips the combination with a
warning when instantiation raises, and otherwise stores the instance in the
`tricky_weird_cereggii_objects` dict under
`f"instance_of_{WeirdClass.__name__}"`.  Instantiation happens inside the
opaque subject, so it is abstracted as an `Option`-valued oracle. -/

/-- One (base class, target method, behavior) combination of the loop. -/
structure WeirdCombo where
  baseClass : String
  methodName : String
  behaviorName : String
deriving Repr, DecidableEq

/-- `f"Weird_{base_class.__name__}_Override_{method_name}_{behavior_name}"`. -/
def weirdClassName (c : WeirdCombo) : String :=
  "Weird_" ++ c.baseClass ++ "_Override_" ++ c.methodName ++ "_" ++ c.behaviorName

/-- `f"instance_of_{WeirdClass.__name__}"`. -/
def weirdInstanceName (c : WeirdCombo) : String :=
  "instance_of_" ++ weirdClassName c

/-- The `TARGET_METHODS` table: each (non-commented-out) base class with the
list of methods targeted for overriding. -/
def TARGET_METHODS : List (String × List String) :=
  [("AtomicInt64",
    ["get", "set", "compare_and_set", "__int__", "__add__", "__iadd__",
      "update_and_get", "get_and_update"]),
   ("CountDownLatch", ["wait", "decrement", "get"]),
   ("ThreadHandle", ["__getattr__", "__call__", "__getitem__", "__setitem__"])]

/-- The keys of `malicious_behaviors`, in insertion order;
`side_effect_mutate_local` is appended only when `_HAS_DEPS` is true. -/
def malicious_behavior_names (hasDeps : Bool) : List String :=
  ["raise_ValueError", "raise_TypeError", "raise_AttributeError",
    "raise_SystemError", "return_None", "return_string", "return_int",
    "return_self", "abuse_super"] ++
    (if hasDeps then ["side_effect_mutate_local"] else [])

/-- The combinations visited by the generation loop, in loop order. -/
def weird_combos (hasDeps : Bool) : List WeirdCombo :=
  TARGET_METHODS.flatMap fun cm =>
    cm.2.flatMap fun m =>
      (malicious_behavior_names hasDeps).map fun b => ⟨cm.1, m, b⟩

/-- Python dict assignment `d[k] = v`: overwrite in place if the key exists,
otherwise insert at the end. -/
def dictAssign {V : Type} (d : List (String × V)) (k : String) (v : V) :
    List (String × V) :=
  match d with
  | [] => [(k, v)]
  | (k', v') :: rest =>
    if k' = k then (k', v) :: rest else (k', v') :: dictAssign rest k v

/-- Python dict read `d[k]` as an option (first match). -/
def dictFind {V : Type} (d : List (String × V)) (k : String) : Option V :=
  match d with
  | [] => none
  | (k', v') :: rest => if k' = k then some v' else dictFind rest k

/-- The generation loop: for each combination, ask the instantiation oracle;
`none` models a raised exception, which is caught, warned about and skipped
(`continue`); a `some` instance is stored under the combination's name. -/
def build_tricky_weird_objects {V : Type} (inst : WeirdCombo → Option V)
    (combos : List WeirdCombo) : List (String × V) :=
  combos.foldl
    (fun acc c =>
      match inst c with
      | none => acc
      | some v => dictAssign acc (weirdInstanceName c) v)
    []

/-- An injective numeric code of a string (a base-`1114112` reading of the
code points, shifted so that no digit is zero); used only to make duplicate
detection over the generated catalog names cheap to evaluate. -/
def codeOfString (s : String) : Nat :=
  s.toList.foldl (fun acc c => acc * 1114112 + (c.toNat + 1)) 1

/-! ## `make_wrong_typer` (`tricky_weird_cereggii.py`)

The configured `return_value` is captured by the returned closure.  On each
invocation: the marker string `"self"` returns the receiving instance; a
`list`, `dict` or `set` value is returned as `return_value.copy()` — a fresh
object with the same (shallow) contents; anything else is returned as is.
Mutable containers live on an explicit heap of addresses so that "fresh
object" and "same object" are expressible. -/

/-- A Python mutable container as stored on the heap, with opaque immutable
elements of type `α`. -/
inductive PyMutable (α : Type) where
  | listObj (xs : List α)
  | dictObj (xs : List (α × α))
  | setObj (xs : List α)
deriving Repr, DecidableEq

/-- A Python value as seen by `make_wrong_typer`: `None`, a string, an
integer, a reference to a heap-allocated mutable container, or some other
immutable value whose structure does not matter here. -/
inductive PyValue (α : Type) where
  | noneVal
  | strVal (s : String)
  | intVal (n : Int)
  | objRef (addr : Nat)
  | otherVal (x : α)
deriving Repr, DecidableEq

/-- A heap of mutable containers: an address-indexed store plus the next
fresh address. -/
structure PyHeap (α : Type) where
  store : List (Nat × PyMutable α)
  nextAddr : Nat
deriving Repr, DecidableEq

/-- Lookup in an address-indexed store (first match). -/
def storeLookup {α : Type} : List (Nat × PyMutable α) → Nat → Option (PyMutable α)
  | [], _ => none
  | (a', o) :: rest, a => if a' = a then some o else storeLookup rest a

/-- Read the container at an address. -/
def PyHeap.read {α : Type} (h : PyHeap α) (a : Nat) : Option (PyMutable α) :=
  storeLookup h.store a

/-- Allocate a new container at a fresh address. -/
def PyHeap.alloc {α : Type} (h : PyHeap α) (o : PyMutable α) : Nat × PyHeap α :=
  (h.nextAddr, ⟨h.store ++ [(h.nextAddr, o)], h.nextAddr + 1⟩)

/-- Update the first matching address of an address-indexed store. -/
def storeWrite {α : Type} : List (Nat × PyMutable α) → Nat → PyMutable α → List (Nat × PyMutable α)
  | [], _, _ => []
  | (a', o') :: rest, a, o =>
    if a' = a then (a', o) :: rest else (a', o') :: storeWrite rest a o

/-- Overwrite the container stored at an existing address (a caller mutating
a container in place). -/
def PyHeap.write {α : Type} (h : PyHeap α) (a : Nat) (o : PyMutable α) : PyHeap α :=
  ⟨storeWrite h.store a o, h.nextAddr⟩

/-- Heap well-formedness: allocated addresses are below `nextAddr` and
pairwise distinct. -/
def PyHeap.WF {α : Type} (h : PyHeap α) : Prop :=
  (∀ p ∈ h.store, p.1 < h.nextAddr) ∧ (h.store.map Prod.fst).Nodup

/-- One invocation of the closure produced by
`make_wrong_typer(return_value)`, on a receiver `selfv` and a heap `h`:
the `"self"` marker test, then the mutable-container copy, then the
pass-through default. -/
def wrong_typer {α : Type} (return_value selfv : PyValue α) (h : PyHeap α) :
    PyValue α × PyHeap α :=
  match return_value with
  | PyValue.strVal s => if s = "self" then (selfv, h) else (PyValue.strVal s, h)
  | PyValue.objRef a =>
    match h.read a with
    | some o =>
      let r := h.alloc o
      (PyValue.objRef r.1, r.2)
    | none => (PyValue.objRef a, h)
  | v => (v, h)

/-! ## `scenario_random_ops` (`tricky_stateful_scenarios.py`)

The scenario keeps a `cereggii.AtomicDict` `d` and a standard dict `model`
side by side.  Per step it picks one of `setitem`, `getitem`, `delitem`,
`len`, applies it to `d` and then to `model` inside a
`try`/`except (KeyError, TypeError)` (the handler re-checks the model and,
for `delitem`, re-executes `del model[key]`), and after every step compares
`len(d)` with `len(model)`, returning `False` on the first mismatch and
`True` when all steps kept the lengths equal.  The `AtomicDict` is the
opaque subject and is abstracted as a state machine whose operations may
raise the two catchable exception kinds; the standard `model` dict is
embedded concretely. -/

/-- The two exception kinds caught by the scenario's `except` clause. -/
inductive DictExc where
  | keyError
  | typeError
deriving Repr, DecidableEq

/-- One operation of the random sequence, with its pre-drawn key (and value). -/
inductive RandomOp (K V : Type) where
  | setitem (k : K) (v : V)
  | getitem (k : K)
  | delitem (k : K)
  | lenOp
deriving Repr, DecidableEq

/-- The opaque `AtomicDict` subject: a fresh-dict state, the four operations
the scenario issues, each allowed to raise one of the catchable kinds. -/
structure AtomicDictOracle (K V δ : Type) where
  fresh : δ
  getOp : δ → K → Except DictExc V
  setOp : δ → K → V → Except DictExc δ
  delOp : δ → K → Except DictExc δ
  lenOp : δ → Nat

/-- Standard-dict key lookup (first match). -/
def modelFind {K V : Type} [DecidableEq K] : List (K × V) → K → Option V
  | [], _ => none
  | (k', v') :: rest, k => if k' = k then some v' else modelFind rest k

/-- Standard-dict assignment `model[k] = v`: overwrite in place or insert at
the end. -/
def modelAssign {K V : Type} [DecidableEq K] : List (K × V) → K → V → List (K × V)
  | [], k, v => [(k, v)]
  | (k', v') :: rest, k, v =>
    if k' = k then (k', v) :: rest else (k', v') :: modelAssign rest k v

/-- Standard-dict removal of a key's entry (first match). -/
def modelErase {K V : Type} [DecidableEq K] : List (K × V) → K → List (K × V)
  | [], _ => []
  | (k', v') :: rest, k => if k' = k then rest else (k', v') :: modelErase rest k

/-- `model[key]` on the ground-truth dict: `TypeError` for an unhashable key,
`KeyError` for a missing key. -/
def pyDictGet {K V : Type} [DecidableEq K] (hashable : K → Bool)
    (m : List (K × V)) (k : K) : Except DictExc V :=
  if hashable k then
    match modelFind m k with
    | some v => Except.ok v
    | none => Except.error DictExc.keyError
  else Except.error DictExc.typeError

/-- `model[key] = value` on the ground-truth dict. -/
def pyDictSet {K V : Type} [DecidableEq K] (hashable : K → Bool)
    (m : List (K × V)) (k : K) (v : V) : Except DictExc (List (K × V)) :=
  if hashable k then Except.ok (modelAssign m k v)
  else Except.error DictExc.typeError

/-- `del model[key]` on the ground-truth dict. -/
def pyDictDel {K V : Type} [DecidableEq K] (hashable : K → Bool)
    (m : List (K × V)) (k : K) : Except DictExc (List (K × V)) :=
  if hashable k then
    match modelFind m k with
    | some _ => Except.ok (modelErase m k)
    | none => Except.error DictExc.keyError
  else Except.error DictExc.typeError

/-- The paired state of the scenario: the subject dict and the ground-truth
model dict. -/
structure RandState (K V δ : Type) where
  d : δ
  model : List (K × V)

/-- One step of `scenario_random_ops`: apply the drawn operation to the
subject first and then to the model, with the `except (KeyError, TypeError)`
handler's state effects (for `delitem` the handler runs `del model[key]`
again, which mutates the model when it succeeds; for the other operations the
handler only reads and prints). -/
def scenario_step {K V δ : Type} [DecidableEq K] (O : AtomicDictOracle K V δ)
    (hashable : K → Bool) (s : RandState K V δ) (op : RandomOp K V) :
    RandState K V δ :=
  match op with
  | RandomOp.setitem k v =>
    match O.setOp s.d k v with
    | Except.error _ => s
    | Except.ok d1 =>
      match pyDictSet hashable s.model k v with
      | Except.error _ => ⟨d1, s.model⟩
      | Except.ok m1 => ⟨d1, m1⟩
  | RandomOp.getitem _ => s
  | RandomOp.delitem k =>
    match O.delOp s.d k with
    | Except.error _ =>
      match pyDictDel hashable s.model k with
      | Except.ok m1 => ⟨s.d, m1⟩
      | Except.error _ => s
    | Except.ok d1 =>
      match pyDictDel hashable s.model k with
      | Except.error _ => ⟨d1, s.model⟩
      | Except.ok m1 => ⟨d1, m1⟩
  | RandomOp.lenOp => s

/-- Length agreement `len(d) == len(model)`, checked after every step. -/
def lengthsAgree {K V δ : Type} (O : AtomicDictOracle K V δ)
    (s : RandState K V δ) : Bool :=
  O.lenOp s.d == s.model.length

/-- The main loop of `scenario_random_ops` over a pre-drawn operation
sequence: run each step, return `False` at the first length mismatch, `True`
after the last step. -/
def scenario_random_ops_aux {K V δ : Type} [DecidableEq K]
    (O : AtomicDictOracle K V δ) (hashable : K → Bool) :
    List (RandomOp K V) → RandState K V δ → Bool
  | [], _ => true
  | op :: rest, s =>
    let s1 := scenario_step O hashable s op
    if lengthsAgree O s1 then scenario_random_ops_aux O hashable rest s1
    else false

/-- Number of steps the loop executes before returning (the step at which
`False` is returned counts as executed; a `True` run executes the whole
sequence). -/
def scenario_random_ops_steps {K V δ : Type} [DecidableEq K]
    (O : AtomicDictOracle K V δ) (hashable : K → Bool) :
    List (RandomOp K V) → RandState K V δ → Nat
  | [], _ => 0
  | op :: rest, s =>
    let s1 := scenario_step O hashable s op
    if lengthsAgree O s1 then scenario_random_ops_steps O hashable rest s1 + 1
    else 1

/-- `scenario_random_ops` on a pre-drawn random sequence: start from a fresh
subject dict and an empty model (`d = cereggii.AtomicDict(); model = {}`). -/
def scenario_random_ops {K V δ : Type} [DecidableEq K]
    (O : AtomicDictOracle K V δ) (hashable : K → Bool)
    (script : List (RandomOp K V)) : Bool :=
  scenario_random_ops_aux O hashable script ⟨O.fresh, []⟩

/-- The state reached after each executed step, ignoring early exit: the
scan of `scenario_step` over the script (the state after step `i` is at
position `i` of this list). -/
def scenario_states {K V δ : Type} [DecidableEq K] (O : AtomicDictOracle K V δ)
    (hashable : K → Bool) (script : List (RandomOp K V))
    (s : RandState K V δ) : List (RandState K V δ) :=
  match script with
  | [] => []
  | op :: rest =>
    let s1 := scenario_step O hashable s op
    s1 :: scenario_states O hashable rest s1

/-! ## Lemmas about the association-list primitives -/

theorem alistLookup_eq_none_iff (l : List (Nat × List Nat)) (b : Nat) :
    alistLookup l b = none ↔ b ∉ l.map Prod.fst := by
  induction l with
  | nil => simp [alistLookup]
  | cons hd tl ih =>
    obtain ⟨k, v⟩ := hd
    by_cases hk : k = b
    · subst hk
      simp [alistLookup]
    · simp [alistLookup, hk, ih, Ne.symm hk]

theorem mem_of_alistLookup {l : List (Nat × List Nat)} {b : Nat} {v : List Nat}
    (h : alistLookup l b = some v) : (b, v) ∈ l := by
  induction l with
  | nil => simp [alistLookup] at h
  | cons hd tl ih =>
    obtain ⟨k, w⟩ := hd
    by_cases hk : k = b
    · subst hk
      simp [alistLookup] at h
      simp [h]
    · simp [alistLookup, hk] at h
      exact List.mem_cons_of_mem _ (ih h)

theorem alistLookup_of_mem {l : List (Nat × List Nat)} {b : Nat} {v : List Nat}
    (hnd : (l.map Prod.fst).Nodup) (h : (b, v) ∈ l) : alistLookup l b = some v := by
  induction l with
  | nil => simp at h
  | cons hd tl ih =>
    obtain ⟨k, w⟩ := hd
    simp only [List.map_cons, List.nodup_cons] at hnd
    rcases List.mem_cons.1 h with heq | hmem
    · cases heq
      simp [alistLookup]
    · have hkb : k ≠ b := by
        intro hkb
        subst hkb
        exact hnd.1 (List.mem_map.2 ⟨(k, v), hmem, rfl⟩)
      simp [alistLookup, hkb]
      exact ih hnd.2 hmem

theorem alistLookup_touch_self (l : List (Nat × List Nat)) (b : Nat) :
    alistLookup (alistTouch l b) b = some ((alistLookup l b).getD []) := by
  induction l with
  | nil => simp [alistTouch, alistLookup]
  | cons hd tl ih =>
    obtain ⟨k, v⟩ := hd
    by_cases hk : k = b
    · subst hk
      simp [alistTouch, alistLookup]
    · simp [alistTouch, alistLookup, hk, ih]

theorem alistLookup_touch_ne (l : List (Nat × List Nat)) {b b' : Nat}
    (h : b' ≠ b) : alistLookup (alistTouch l b) b' = alistLookup l b' := by
  induction l with
  | nil => simp [alistTouch, alistLookup, Ne.symm h]
  | cons hd tl ih =>
    obtain ⟨k, v⟩ := hd
    by_cases hk : k = b
    · subst hk
      simp [alistTouch, alistLookup, Ne.symm h]
    · by_cases hk' : k = b'
      · subst hk'
        simp [alistTouch, alistLookup, hk]
      · simp [alistTouch, alistLookup, hk, hk', ih]

theorem alistLookup_append_self (l : List (Nat × List Nat)) (b i : Nat) :
    alistLookup (alistAppend l b i) b =
      some ((alistLookup l b).getD [] ++ [i]) := by
  induction l with
  | nil => simp [alistAppend, alistLookup]
  | cons hd tl ih =>
    obtain ⟨k, v⟩ := hd
    by_cases hk : k = b
    · subst hk
      simp [alistAppend, alistLookup]
    · simp [alistAppend, alistLookup, hk, ih]

theorem alistLookup_append_ne (l : List (Nat × List Nat)) {b b' : Nat} (i : Nat)
    (h : b' ≠ b) : alistLookup (alistAppend l b i) b' = alistLookup l b' := by
  induction l with
  | nil => simp [alistAppend, alistLookup, Ne.symm h]
  | cons hd tl ih =>
    obtain ⟨k, v⟩ := hd
    by_cases hk : k = b
    · subst hk
      simp [alistAppend, alistLookup, Ne.symm h]
    · by_cases hk' : k = b'
      · subst hk'
        simp [alistAppend, alistLookup, hk]
      · simp [alistAppend, alistLookup, hk, hk', ih]

theorem alistTouch_keys (l : List (Nat × List Nat)) (b : Nat) :
    (alistTouch l b).map Prod.fst =
      if b ∈ l.map Prod.fst then l.map Prod.fst else l.map Prod.fst ++ [b] := by
  induction l with
  | nil => simp [alistTouch]
  | cons hd tl ih =>
    obtain ⟨k, v⟩ := hd
    by_cases hk : k = b
    · subst hk
      simp [alistTouch]
    · simp only [alistTouch, if_neg hk, List.map_cons, ih, List.mem_cons]
      by_cases hb : b ∈ tl.map Prod.fst
      · simp [hb, Ne.symm hk]
      · simp [hb, Ne.symm hk]

theorem alistAppend_keys (l : List (Nat × List Nat)) (b i : Nat) :
    (alistAppend l b i).map Prod.fst =
      if b ∈ l.map Prod.fst then l.map Prod.fst else l.map Prod.fst ++ [b] := by
  induction l with
  | nil => simp [alistAppend]
  | cons hd tl ih =>
    obtain ⟨k, v⟩ := hd
    by_cases hk : k = b
    · subst hk
      simp [alistAppend]
    · simp only [alistAppend, if_neg hk, List.map_cons, ih, List.mem_cons]
      by_cases hb : b ∈ tl.map Prod.fst
      · simp [hb, Ne.symm hk]
      · simp [hb, Ne.symm hk]

theorem alistTouch_keys_nodup {l : List (Nat × List Nat)} (b : Nat)
    (h : (l.map Prod.fst).Nodup) : ((alistTouch l b).map Prod.fst).Nodup := by
  rw [alistTouch_keys]
  by_cases hb : b ∈ l.map Prod.fst
  · simpa [hb]
  · simpa [hb] using List.Nodup.append h (List.nodup_singleton b) (by simpa using hb)

theorem alistAppend_keys_nodup {l : List (Nat × List Nat)} (b i : Nat)
    (h : (l.map Prod.fst).Nodup) : ((alistAppend l b i).map Prod.fst).Nodup := by
  rw [alistAppend_keys]
  by_cases hb : b ∈ l.map Prod.fst
  · simpa [hb]
  · simpa [hb] using List.Nodup.append h (List.nodup_singleton b) (by simpa using hb)

/-! ## Effect of one loop iteration -/

theorem bucketListOf_genStep (re : Nat → Nat) (ls N Q : Nat) (s : GenState)
    (i b : Nat) :
    bucketListOf (genStep re ls N Q s i) b =
      if b = bucketOf re ls i ∧ bucketOf re ls i < N ∧
          (bucketListOf s (bucketOf re ls i)).length < Q then
        bucketListOf s b ++ [i]
      else bucketListOf s b := by
  by_cases hN : bucketOf re ls i < N
  · by_cases hQ : (bucketListOf s (bucketOf re ls i)).length < Q
    · by_cases hb : b = bucketOf re ls i
      · subst hb
        simp only [genStep, if_pos hN, if_pos hQ, hN, hQ, and_self, if_pos, and_true,
          true_and, if_true]
        simp [bucketListOf, alistLookup_append_self]
      · simp only [genStep, if_pos hN, if_pos hQ]
        simp only [hb, false_and, if_false]
        simp [bucketListOf, alistLookup_append_ne _ _ hb]
    · simp only [genStep, if_pos hN, if_neg hQ, hQ, and_false, false_and, if_false]
      by_cases hb : b = bucketOf re ls i
      · subst hb
        simp [bucketListOf, alistLookup_touch_self]
      · simp [bucketListOf, alistLookup_touch_ne _ hb]
  · simp [genStep, if_neg hN, hN]

theorem filled_genStep (re : Nat → Nat) (ls N Q : Nat) (s : GenState) (i : Nat) :
    (genStep re ls N Q s i).filled =
      if bucketOf re ls i < N ∧ (bucketListOf s (bucketOf re ls i)).length < Q ∧
          bucketOf re ls i ∉ s.filled then
        s.filled.concat (bucketOf re ls i)
      else s.filled := by
  by_cases hN : bucketOf re ls i < N
  · by_cases hQ : (bucketListOf s (bucketOf re ls i)).length < Q
    · by_cases hf : bucketOf re ls i ∈ s.filled
      · simp [genStep, hN, hQ, hf]
      · simp [genStep, hN, hQ, hf]
    · simp [genStep, hN, hQ]
  · simp [genStep, hN]

theorem results_keys_genStep_nodup (re : Nat → Nat) (ls N Q : Nat)
    (s : GenState) (i : Nat) (h : (s.results.map Prod.fst).Nodup) :
    (((genStep re ls N Q s i).results).map Prod.fst).Nodup := by
  by_cases hN : bucketOf re ls i < N
  · by_cases hQ : (bucketListOf s (bucketOf re ls i)).length < Q
    · simpa [genStep, hN, hQ] using alistAppend_keys_nodup _ i h
    · simpa [genStep, hN, hQ] using alistTouch_keys_nodup _ h
  · simpa [genStep, hN] using h

theorem results_domain_genStep (re : Nat → Nat) (ls N Q : Nat) (s : GenState)
    (i : Nat) (h : ∀ b, alistLookup s.results b = none ∨ b < N) :
    ∀ b, alistLookup (genStep re ls N Q s i).results b = none ∨ b < N := by
  intro b
  by_cases hN : bucketOf re ls i < N
  · by_cases hQ : (bucketListOf s (bucketOf re ls i)).length < Q
    · by_cases hb : b = bucketOf re ls i
      · subst hb
        exact Or.inr hN
      · simpa [genStep, hN, hQ, alistLookup_append_ne _ _ hb] using h b
    · by_cases hb : b = bucketOf re ls i
      · subst hb
        exact Or.inr hN
      · simpa [genStep, hN, hQ, alistLookup_touch_ne _ hb] using h b
  · simpa [genStep, hN] using h b

/-! ## The loop invariant is established and preserved -/

theorem GenInv_init (re : Nat → Nat) (ls N Q : Nat) :
    GenInv re ls N Q 0 ⟨[], []⟩ := by
  refine ⟨by simp, by simp, ?_, ?_, ?_, ?_⟩
  · intro b
    exact Or.inl rfl
  · intro b
    simp [bucketListOf, alistLookup]
  · intro b hb
    simp at hb
  · intro b
    simp [bucketListOf, alistLookup]

theorem GenInv_mono (re : Nat → Nat) (ls N Q : Nat) {i j : Nat} (hij : i ≤ j)
    {s : GenState} (h : GenInv re ls N Q i s) : GenInv re ls N Q j s := by
  obtain ⟨h1, h2, h3, h4, h5, h6⟩ := h
  refine ⟨h1, h2, h3, ?_, h5, h6⟩
  intro b
  obtain ⟨hl, hp, hk⟩ := h4 b
  exact ⟨hl, hp, fun k hkmem => ⟨lt_of_lt_of_le (hk k hkmem).1 hij, (hk k hkmem).2⟩⟩


theorem GenInv_genStep (re : Nat → Nat) (ls N Q : Nat) {i : Nat} {s : GenState}
    (h : GenInv re ls N Q i s) :
    GenInv re ls N Q (i + 1) (genStep re ls N Q s i) := by
  obtain ⟨h1, h2, h3, h4, h5, h6⟩ := h
  refine ⟨results_keys_genStep_nodup re ls N Q s i h1, ?_,
    results_domain_genStep re ls N Q s i h3, ?_, ?_, ?_⟩
  · rw [filled_genStep]
    by_cases hc : bucketOf re ls i < N ∧
        (bucketListOf s (bucketOf re ls i)).length < Q ∧ bucketOf re ls i ∉ s.filled
    · rw [if_pos hc, List.concat_eq_append, List.nodup_append]
      refine ⟨h2, List.nodup_singleton _, ?_⟩
      intro x hx hx2
      rw [List.mem_singleton] at hx2
      subst hx2
      exact hc.2.2 hx
    · rw [if_neg hc]
      exact h2
  · intro b
    rw [bucketListOf_genStep]
    by_cases hc : b = bucketOf re ls i ∧ bucketOf re ls i < N ∧
        (bucketListOf s (bucketOf re ls i)).length < Q
    · rw [if_pos hc]
      obtain ⟨hb, hN, hQ⟩ := hc
      obtain ⟨hl, hp, hk⟩ := h4 b
      have hQb : (bucketListOf s b).length < Q := by rw [hb]; exact hQ
      refine ⟨?_, ?_, ?_⟩
      · simpa using Nat.succ_le_of_lt hQb
      · rw [List.pairwise_append]
        refine ⟨hp, List.pairwise_singleton _ _, ?_⟩
        intro x hx y hy
        rw [List.mem_singleton] at hy
        subst hy
        exact (hk x hx).1
      · intro k hkmem
        rcases List.mem_append.1 hkmem with hkl | hkr
        · exact ⟨Nat.lt_succ_of_lt (hk k hkl).1, (hk k hkl).2⟩
        · rw [List.mem_singleton] at hkr
          subst hkr
          exact ⟨Nat.lt_succ_self _, hb.symm⟩
    · rw [if_neg hc]
      obtain ⟨hl, hp, hk⟩ := h4 b
      exact ⟨hl, hp, fun k hkmem => ⟨Nat.lt_succ_of_lt (hk k hkmem).1, (hk k hkmem).2⟩⟩
  · intro b hb
    rw [filled_genStep] at hb
    by_cases hc : bucketOf re ls i < N ∧
        (bucketListOf s (bucketOf re ls i)).length < Q ∧ bucketOf re ls i ∉ s.filled
    · rw [if_pos hc, List.concat_eq_append, List.mem_append] at hb
      rcases hb with hb | hb
      · exact h5 b hb
      · rw [List.mem_singleton] at hb
        subst hb
        exact hc.1
    · rw [if_neg hc] at hb
      exact h5 b hb
  · intro b
    have hfil : b ∈ (genStep re ls N Q s i).filled ↔
        (b ∈ s.filled ∨ (b = bucketOf re ls i ∧ bucketOf re ls i < N ∧
          (bucketListOf s (bucketOf re ls i)).length < Q)) := by
      rw [filled_genStep]
      by_cases hc : bucketOf re ls i < N ∧
          (bucketListOf s (bucketOf re ls i)).length < Q ∧ bucketOf re ls i ∉ s.filled
      · rw [if_pos hc, List.concat_eq_append, List.mem_append, List.mem_singleton]
        constructor
        · rintro (hb | hb)
          · exact Or.inl hb
          · exact Or.inr ⟨hb, hc.1, hc.2.1⟩
        · rintro (hb | hb)
          · exact Or.inl hb
          · exact Or.inr hb.1
      · rw [if_neg hc]
        constructor
        · exact Or.inl
        · rintro (hb | ⟨hbB, hBN, hBQ⟩)
          · exact hb
          · subst hbB
            by_cases hf : bucketOf re ls i ∈ s.filled
            · exact hf
            · exact absurd ⟨hBN, hBQ, hf⟩ hc
    have hlist : bucketListOf (genStep re ls N Q s i) b ≠ [] ↔
        (bucketListOf s b ≠ [] ∨ (b = bucketOf re ls i ∧ bucketOf re ls i < N ∧
          (bucketListOf s (bucketOf re ls i)).length < Q)) := by
      rw [bucketListOf_genStep]
      by_cases hc : b = bucketOf re ls i ∧ bucketOf re ls i < N ∧
          (bucketListOf s (bucketOf re ls i)).length < Q
      · rw [if_pos hc]
        simp [hc]
      · rw [if_neg hc]
        simp [hc]
    rw [hfil, hlist, h6 b]

theorem GenInv_genLoopAux (re : Nat → Nat) (ls N Q : Nat) :
    ∀ (fuel i : Nat) (s : GenState), GenInv re ls N Q i s →
      GenInv re ls N Q (i + fuel) (genLoopAux re ls N Q fuel i s).1 := by
  intro fuel
  induction fuel with
  | zero =>
    intro i s h
    simpa [genLoopAux] using h
  | succ fuel ih =>
    intro i s h
    rw [genLoopAux]
    by_cases hstop : stopNow N Q (genStep re ls N Q s i) = true
    · simp only [hstop, if_true]
      exact GenInv_mono re ls N Q (by omega) (GenInv_genStep re ls N Q h)
    · simp only [hstop, if_false]
      have := ih (i + 1) (genStep re ls N Q s i) (GenInv_genStep re ls N Q h)
      have harith : i + 1 + fuel = i + (fuel + 1) := by omega
      rwa [harith] at this

theorem genLoopAux_snd_true (re : Nat → Nat) (ls N Q : Nat) :
    ∀ (fuel i : Nat) (s : GenState), (genLoopAux re ls N Q fuel i s).2 = true →
      stopNow N Q (genLoopAux re ls N Q fuel i s).1 = true := by
  intro fuel
  induction fuel with
  | zero =>
    intro i s h
    simp [genLoopAux] at h
  | succ fuel ih =>
    intro i s h
    rw [genLoopAux] at h ⊢
    by_cases hstop : stopNow N Q (genStep re ls N Q s i) = true
    · simp [hstop]
    · simp only [hstop, if_false] at h ⊢
      exact ih _ _ h

theorem genLoopAux_snd_false (re : Nat → Nat) (ls N Q : Nat) :
    ∀ (fuel i : Nat) (s : GenState), stopNow N Q s = false →
      (genLoopAux re ls N Q fuel i s).2 = false →
      stopNow N Q (genLoopAux re ls N Q fuel i s).1 = false := by
  intro fuel
  induction fuel with
  | zero =>
    intro i s hs _
    simpa [genLoopAux] using hs
  | succ fuel ih =>
    intro i s hs h
    rw [genLoopAux] at h ⊢
    by_cases hstop : stopNow N Q (genStep re ls N Q s i) = true
    · simp [hstop] at h
    · simp only [hstop, if_false] at h ⊢
      exact ih _ _ (Bool.eq_false_iff.2 hstop) h

theorem stopNow_iff_saturated (re : Nat → Nat) (ls N Q i : Nat) (s : GenState)
    (hInv : GenInv re ls N Q i s) (_hN : 1 ≤ N) (hQ : 1 ≤ Q) :
    stopNow N Q s = true ↔ saturatedRun N Q s := by
  obtain ⟨h1, h2, h3, h4, h5, h6⟩ := hInv
  constructor
  · intro hstop
    rw [stopNow, Bool.and_eq_true, decide_eq_true_eq] at hstop
    obtain ⟨hlen, hall⟩ := hstop
    have hsub : s.filled.toFinset ⊆ Finset.range N := by
      intro x hx
      exact Finset.mem_range.2 (h5 x (List.mem_toFinset.1 hx))
    have hcard : (Finset.range N).card ≤ s.filled.toFinset.card := by
      rw [Finset.card_range, List.toFinset_card_of_nodup h2]
      exact hlen
    have hfeq : s.filled.toFinset = Finset.range N :=
      Finset.eq_of_subset_of_card_le hsub hcard
    intro b hb
    have hbfil : b ∈ s.filled := by
      rw [← List.mem_toFinset, hfeq]
      exact Finset.mem_range.2 hb
    have hne := (h6 b).1 hbfil
    cases hl : alistLookup s.results b with
    | none =>
      exact absurd (by simp [bucketListOf, hl]) hne
    | some v =>
      have hmem := mem_of_alistLookup hl
      have := (List.all_eq_true.1 hall) _ hmem
      rw [Bool.or_eq_true, Bool.not_eq_true', decide_eq_false_iff_not,
        decide_eq_true_eq] at this
      rcases this with hnb | hle
      · exact absurd hb hnb
      · simpa [bucketListOf, hl] using hle
  · intro hsat
    rw [stopNow, Bool.and_eq_true, decide_eq_true_eq]
    constructor
    · have hsub : Finset.range N ⊆ s.filled.toFinset := by
        intro b hb
        rw [Finset.mem_range] at hb
        have hlen := hsat b hb
        have hne : bucketListOf s b ≠ [] := by
          intro hnil
          rw [hnil] at hlen
          simp at hlen
          omega
        exact List.mem_toFinset.2 ((h6 b).2 hne)
      calc N = (Finset.range N).card := (Finset.card_range N).symm
        _ ≤ s.filled.toFinset.card := Finset.card_le_card hsub
        _ ≤ s.filled.length := s.filled.toFinset_card_le
    · rw [allFull, List.all_eq_true]
      intro kv hkv
      rw [Bool.or_eq_true, Bool.not_eq_true', decide_eq_false_iff_not,
        decide_eq_true_eq]
      by_cases hbN : kv.1 < N
      · refine Or.inr ?_
        have hl : alistLookup s.results kv.1 = some kv.2 :=
          alistLookup_of_mem h1 hkv
        have := hsat kv.1 hbN
        simpa [bucketListOf, hl] using this
      · exact Or.inl hbN

theorem hasKey_genStep_of (re : Nat → Nat) (ls N Q : Nat) (s : GenState)
    (i : Nat) (h : hasKey s) : hasKey (genStep re ls N Q s i) := by
  obtain ⟨b, hb⟩ := h
  refine ⟨b, ?_⟩
  rw [bucketListOf_genStep]
  by_cases hc : b = bucketOf re ls i ∧ bucketOf re ls i < N ∧
      (bucketListOf s (bucketOf re ls i)).length < Q
  · rw [if_pos hc]
    simp
  · rw [if_neg hc]
    exact hb

theorem hasKey_genStep_establish (re : Nat → Nat) (ls N Q : Nat) (s : GenState)
    (i : Nat) (hQ : 1 ≤ Q) (hb : bucketOf re ls i < N) :
    hasKey (genStep re ls N Q s i) := by
  by_cases hlen : (bucketListOf s (bucketOf re ls i)).length < Q
  · refine ⟨bucketOf re ls i, ?_⟩
    rw [bucketListOf_genStep, if_pos ⟨rfl, hb, hlen⟩]
    simp
  · refine ⟨bucketOf re ls i, ?_⟩
    rw [bucketListOf_genStep, if_neg (by simp [hlen])]
    intro hnil
    rw [hnil] at hlen
    simp at hlen
    omega

theorem hasKey_of_stopNow (N Q : Nat) (s : GenState) (hN : 1 ≤ N)
    (h6 : ∀ b, b ∈ s.filled ↔ bucketListOf s b ≠ [])
    (hstop : stopNow N Q s = true) : hasKey s := by
  rw [stopNow, Bool.and_eq_true, decide_eq_true_eq] at hstop
  have hlen : 1 ≤ s.filled.length := le_trans hN hstop.1
  cases hf : s.filled with
  | nil => rw [hf] at hlen; simp at hlen
  | cons b rest =>
    refine ⟨b, (h6 b).1 ?_⟩
    rw [hf]
    exact List.mem_cons_self _ _

theorem hasKey_genLoopAux (re : Nat → Nat) (ls N Q : Nat) (hN : 1 ≤ N)
    (hQ : 1 ≤ Q) :
    ∀ (fuel i : Nat) (s : GenState), GenInv re ls N Q i s →
      ((∃ i0, i ≤ i0 ∧ i0 < i + fuel ∧ bucketOf re ls i0 < N) ∨ hasKey s) →
      hasKey (genLoopAux re ls N Q fuel i s).1 := by
  intro fuel
  induction fuel with
  | zero =>
    intro i s _ hyp
    rcases hyp with ⟨i0, hi, hilt, _⟩ | hk
    · omega
    · simpa [genLoopAux] using hk
  | succ fuel ih =>
    intro i s hInv hyp
    rw [genLoopAux]
    have hInv1 := GenInv_genStep re ls N Q hInv
    by_cases hstop : stopNow N Q (genStep re ls N Q s i) = true
    · simp only [hstop, if_true]
      exact hasKey_of_stopNow N Q _ hN hInv1.2.2.2.2.2 hstop
    · simp only [hstop, if_false]
      refine ih (i + 1) _ hInv1 ?_
      rcases hyp with ⟨i0, hi, hilt, hbkt⟩ | hk
      · by_cases hi0 : i0 = i
        · subst hi0
          exact Or.inr (hasKey_genStep_establish re ls N Q s i0 hQ hbkt)
        · exact Or.inl ⟨i0, by omega, by omega, hbkt⟩
      · exact Or.inr (hasKey_genStep_of re ls N Q s i hk)

theorem genStep_congr (re1 re2 : Nat → Nat) (ls N Q : Nat) (s : GenState)
    (i : Nat) (h : re1 i = re2 i) :
    genStep re1 ls N Q s i = genStep re2 ls N Q s i := by
  simp [genStep, bucketOf, h]

theorem genLoopAux_congr (re1 re2 : Nat → Nat) (ls N Q : Nat) :
    ∀ (fuel i : Nat) (s : GenState),
      (∀ j, i ≤ j → j < i + fuel → re1 j = re2 j) →
      genLoopAux re1 ls N Q fuel i s = genLoopAux re2 ls N Q fuel i s := by
  intro fuel
  induction fuel with
  | zero =>
    intro i s _
    simp [genLoopAux]
  | succ fuel ih =>
    intro i s hagree
    rw [genLoopAux, genLoopAux,
      genStep_congr re1 re2 ls N Q s i (hagree i (le_refl i) (by omega))]
    by_cases hstop : stopNow N Q (genStep re2 ls N Q s i) = true
    · simp [hstop]
    · simp only [hstop, if_false]
      exact ih (i + 1) _ (fun j hj hj2 => hagree j (by omega) (by omega))

theorem generate_colliding_keys_eq (re : Nat → Nat) (ls N Q : Nat) :
    generate_colliding_keys re ls N Q =
      ⟨(genLoopAux re ls N Q SEARCH_CEILING 0 ⟨[], []⟩).1.results,
        !(genLoopAux re ls N Q SEARCH_CEILING 0 ⟨[], []⟩).2⟩ := rfl

theorem GenInv_run (re : Nat → Nat) (ls N Q : Nat) :
    GenInv re ls N Q SEARCH_CEILING
      (genLoopAux re ls N Q SEARCH_CEILING 0 ⟨[], []⟩).1 := by
  simpa using GenInv_genLoopAux re ls N Q SEARCH_CEILING 0 ⟨[], []⟩
    (GenInv_init re ls N Q)

/-- C1.  Every key in every bucket entry returned by
`generate_colliding_keys` rehashes to that entry's bucket index under the
right shift by `64 - log_size` (for `log_size = 6` the shift amount is
`64 - 6 = 58`), and with the parameters `log_size=6`,
`num_buckets_to_fill=16`, `keys_per_bucket=32` the result contains a
non-empty bucket list whenever the (opaque) subject hash sends any candidate
below the `2**24` ceiling into a targeted bucket. -/
theorem colliding_keys_bucket_invariant (rehash : Nat → Nat) :
    (∀ log_size numB keysPer : Nat,
      ∀ p ∈ (generate_colliding_keys rehash log_size numB keysPer).results,
        ∀ k ∈ p.2, rehash k >>> (64 - log_size) = p.1) ∧
    ((∃ i, i < SEARCH_CEILING ∧ rehash i >>> 58 < 16) →
      ∃ p ∈ (generate_colliding_keys rehash 6 16 32).results, p.2 ≠ []) := by
  constructor
  · intro ls N Q p hp k hk
    have hInv := GenInv_run rehash ls N Q
    obtain ⟨h1, _, _, h4, _, _⟩ := hInv
    rw [generate_colliding_keys_eq] at hp
    have hl : alistLookup
        (genLoopAux rehash ls N Q SEARCH_CEILING 0 ⟨[], []⟩).1.results p.1 =
        some p.2 := alistLookup_of_mem h1 hp
    have hbl : bucketListOf (genLoopAux rehash ls N Q SEARCH_CEILING 0 ⟨[], []⟩).1 p.1
        = p.2 := by simp [bucketListOf, hl]
    have := (h4 p.1).2.2 k (by rw [hbl]; exact hk)
    exact this.2
  · rintro ⟨i, hi, hb⟩
    have hInv := GenInv_run rehash 6 16 32
    have hbkt : bucketOf rehash 6 i < 16 := by
      have h58 : (64 : Nat) - 6 = 58 := by norm_num
      rw [bucketOf, h58]
      exact hb
    have hk := hasKey_genLoopAux rehash 6 16 32 (by norm_num) (by norm_num)
      SEARCH_CEILING 0 ⟨[], []⟩ (GenInv_init rehash 6 16 32)
      (Or.inl ⟨i, Nat.zero_le i, by simpa using hi, hbkt⟩)
    obtain ⟨b, hne⟩ := hk
    cases hl : alistLookup
        (genLoopAux rehash 6 16 32 SEARCH_CEILING 0 ⟨[], []⟩).1.results b with
    | none => exact absurd (by simp [bucketListOf, hl]) hne
    | some v =>
      refine ⟨(b, v), ?_, ?_⟩
      · rw [generate_colliding_keys_eq]
        exact mem_of_alistLookup hl
      · have : bucketListOf (genLoopAux rehash 6 16 32 SEARCH_CEILING 0 ⟨[], []⟩).1 b
            = v := by simp [bucketListOf, hl]
        rw [← this]
        exact hne

/-- C1 witness: with the concrete hash `fun _ => 0`, candidate `0` lands in
bucket `0 < 16`, so the theorem's hypothesis holds and the `6/16/32` result
has a populated bucket. -/
theorem colliding_keys_bucket_invariant_witness :
    (∃ i, i < SEARCH_CEILING ∧ (fun _ : Nat => (0 : Nat)) i >>> 58 < 16) ∧
    (∃ p ∈ (generate_colliding_keys (fun _ => 0) 6 16 32).results, p.2 ≠ []) := by
  have hhyp : ∃ i, i < SEARCH_CEILING ∧ (fun _ : Nat => (0 : Nat)) i >>> 58 < 16 :=
    ⟨0, by norm_num [SEARCH_CEILING], by norm_num⟩
  exact ⟨hhyp, (colliding_keys_bucket_invariant (fun _ => 0)).2 hhyp⟩

/-- C2.  The candidate search only ever returns bucket indices below
`num_buckets_to_fill`; each bucket list holds at most `keys_per_bucket`
keys, in strictly increasing order, all drawn from the bounded
`range(2**24)` ceiling; and (for the meaningful parameters, at least one
targeted bucket and a positive quota) the search breaks early — the
`for`-`else` warning branch is skipped — exactly when every targeted bucket
has reached its quota, the partial mapping being returned in either case. -/
theorem colliding_keys_search_bounds (rehash : Nat → Nat) (ls N Q : Nat) :
    (∀ p ∈ (generate_colliding_keys rehash ls N Q).results,
      p.1 < N ∧ p.2.length ≤ Q ∧ p.2.Pairwise (· < ·) ∧
        ∀ k ∈ p.2, k < SEARCH_CEILING) ∧
    (1 ≤ N → 1 ≤ Q →
      ((generate_colliding_keys rehash ls N Q).warned = false ↔
        ∀ b, b < N →
          Q ≤ (resultBucket (generate_colliding_keys rehash ls N Q) b).length)) := by
  have hInv := GenInv_run rehash ls N Q
  obtain ⟨h1, h2, h3, h4, h5, h6⟩ := hInv
  constructor
  · intro p hp
    rw [generate_colliding_keys_eq] at hp
    have hl : alistLookup
        (genLoopAux rehash ls N Q SEARCH_CEILING 0 ⟨[], []⟩).1.results p.1 =
        some p.2 := alistLookup_of_mem h1 hp
    have hbl : bucketListOf (genLoopAux rehash ls N Q SEARCH_CEILING 0 ⟨[], []⟩).1 p.1
        = p.2 := by simp [bucketListOf, hl]
    refine ⟨?_, ?_, ?_, ?_⟩
    · rcases h3 p.1 with hnone | hlt
      · rw [hl] at hnone
        exact absurd hnone (by simp)
      · exact hlt
    · rw [← hbl]
      exact (h4 p.1).1
    · rw [← hbl]
      exact (h4 p.1).2.1
    · intro k hk
      exact ((h4 p.1).2.2 k (by rw [hbl]; exact hk)).1
  · intro hN hQ
    have hiff := stopNow_iff_saturated rehash ls N Q SEARCH_CEILING _
      ⟨h1, h2, h3, h4, h5, h6⟩ hN hQ
    have hwarn : (generate_colliding_keys rehash ls N Q).warned = false ↔
        (genLoopAux rehash ls N Q SEARCH_CEILING 0 ⟨[], []⟩).2 = true := by
      rw [generate_colliding_keys_eq]
      simp
    have hsatdef : saturatedRun N Q (genLoopAux rehash ls N Q SEARCH_CEILING 0 ⟨[], []⟩).1 ↔
        ∀ b, b < N →
          Q ≤ (resultBucket (generate_colliding_keys rehash ls N Q) b).length := by
      rw [generate_colliding_keys_eq]
      exact Iff.rfl
    rw [hwarn, ← hsatdef]
    constructor
    · intro htrue
      exact hiff.1 (genLoopAux_snd_true rehash ls N Q SEARCH_CEILING 0 _ htrue)
    · intro hsat
      by_contra hfalse
      rw [Bool.not_eq_true] at hfalse
      have hinit : stopNow N Q (⟨[], []⟩ : GenState) = false := by
        have hdec : decide (N ≤ (([] : List Nat)).length) = false := by
          rw [decide_eq_false_iff_not]
          simp only [List.length_nil]
          omega
        rw [stopNow]
        rw [hdec, Bool.false_and]
      have := genLoopAux_snd_false rehash ls N Q SEARCH_CEILING 0 _ hinit hfalse
      rw [hiff.2 hsat] at this
      simp at this

/-- C2 witness: at the source's default parameters `N = 16`, `Q = 32` both
positivity hypotheses hold and the early-stop characterization applies. -/
theorem colliding_keys_search_bounds_witness :
    (1 ≤ 16 ∧ 1 ≤ 32) ∧
    ((generate_colliding_keys (fun i => i) 6 16 32).warned = false ↔
      ∀ b, b < 16 →
        32 ≤ (resultBucket (generate_colliding_keys (fun i => i) 6 16 32) b).length) :=
  ⟨⟨by norm_num, by norm_num⟩,
    (colliding_keys_search_bounds (fun i => i) 6 16 32).2 (by norm_num) (by norm_num)⟩

/-- C8.  `generate_colliding_keys` is deterministic: two runs whose hash
functions agree on every candidate below the search ceiling (and with the
same parameters) return the same mapping and warning behavior. -/
theorem colliding_keys_deterministic (re1 re2 : Nat → Nat) (ls N Q : Nat)
    (h : ∀ i, i < SEARCH_CEILING → re1 i = re2 i) :
    generate_colliding_keys re1 ls N Q = generate_colliding_keys re2 ls N Q := by
  rw [generate_colliding_keys_eq, generate_colliding_keys_eq,
    genLoopAux_congr re1 re2 ls N Q SEARCH_CEILING 0 ⟨[], []⟩
      (fun j _ hj2 => h j (by simpa using hj2))]

/-- C8 witness: the hypothesis holds trivially for two syntactically equal
hash functions, and the runs coincide. -/
theorem colliding_keys_deterministic_witness :
    (∀ i, i < SEARCH_CEILING → (fun j : Nat => j * 2654435761) i =
      (fun j : Nat => j * 2654435761) i) ∧
    generate_colliding_keys (fun j => j * 2654435761) 6 16 32 =
      generate_colliding_keys (fun j => j * 2654435761) 6 16 32 :=
  ⟨fun _ _ => rfl,
    colliding_keys_deterministic (fun j => j * 2654435761)
      (fun j => j * 2654435761) 6 16 32 (fun _ _ => rfl)⟩

/-- C3 counterexample: at the source's default thread counts
(`num_iter_threads=4`, `num_chaos_threads=2`), `fast_iter_vs_mutation_race`
issues `t.join()` calls with no timeout, so it is not the case that every
join of that scenario carries a bounding timeout. -/
theorem fast_iter_joins_not_bounded :
    ¬ (∀ j ∈ fast_iter_vs_mutation_race_joins 4 2, j.bounded = true) := by
  intro h
  have hmem : JoinCall.unbounded ∈ fast_iter_vs_mutation_race_joins 4 2 := by
    rw [fast_iter_vs_mutation_race_joins]
    exact List.mem_append_left _ (List.mem_replicate.2 ⟨by norm_num, rfl⟩)
  have := h JoinCall.unbounded hmem
  simp [JoinCall.bounded] at this

/-- C3 (amended).  The lifecycle-race scenario `race_condition_ref_vs_gc`
bounds each of its two joins with an explicit `timeout=1.0`; the
iterator-vs-mutation race scenario `fast_iter_vs_mutation_race`, by
contrast, joins every one of its worker threads with the unbounded
`t.join()` form, whatever the thread counts. -/
theorem scenario_join_structure :
    (∀ j ∈ race_condition_ref_vs_gc_joins, j = JoinCall.withTimeout 1) ∧
    (∀ num_iter_threads num_chaos_threads : Nat,
      ∀ j ∈ fast_iter_vs_mutation_race_joins num_iter_threads num_chaos_threads,
        j = JoinCall.unbounded) := by
  constructor
  · intro j hj
    simp only [race_condition_ref_vs_gc_joins, List.mem_cons,
      List.not_mem_nil, or_false, or_self] at hj
    exact hj
  · intro ni nc j hj
    rw [fast_iter_vs_mutation_race_joins] at hj
    rcases List.mem_append.1 hj with hj | hj
    · exact (List.mem_replicate.1 hj).2
    · exact (List.mem_replicate.1 hj).2

/-- C4.  `dogpile_on_atomicint` issues exactly
`num_threads * ops_per_thread` increment operations, computes that same
product as its expectation, prints the deviation warning precisely when the
observed final counter value differs from it (so success means the reported
value equals `N×M`), and returns the survived flag `True` unconditionally. -/
theorem dogpile_expected_and_flagging (num_threads ops_per_thread : Nat)
    (actual : Int) :
    (dogpile_on_atomicint_report num_threads ops_per_thread actual).expected =
      (num_threads : Int) * (ops_per_thread : Int) ∧
    (dogpile_all_ops num_threads ops_per_thread).length =
      num_threads * ops_per_thread ∧
    ((dogpile_on_atomicint_report num_threads ops_per_thread actual).warned = false ↔
      actual = (num_threads : Int) * (ops_per_thread : Int)) ∧
    (dogpile_on_atomicint_report num_threads ops_per_thread actual).survived = true := by
  refine ⟨rfl, ?_, ?_, rfl⟩
  · rw [dogpile_all_ops, dogpile_worker_ops, List.length_flatMap]
    have h1 : List.map
        (List.length ∘ fun tid => List.map (fun u => ((tid : Nat), u))
          (List.replicate ops_per_thread ())) (List.range num_threads) =
        List.map (fun _ => ops_per_thread) (List.range num_threads) := by
      apply List.map_congr_left
      intro a _
      simp
    rw [h1, List.map_const', List.length_range, List.sum_replicate, smul_eq_mul]
  · rw [dogpile_on_atomicint_report]
    show decide (actual ≠ (num_threads : Int) * (ops_per_thread : Int)) = false ↔ _
    rw [decide_eq_false_iff_not, not_ne_iff]


/-- Splitting a call sequence: the results of `l1 ++ l2` are the results of
`l1` followed by the results of `l2` started from `l1`'s final counter. -/
theorem runUnstableCalls_append (l1 l2 : List UnstableCall) (c : Nat) :
    runUnstableCalls (l1 ++ l2) c =
      ((runUnstableCalls l1 c).1 ++ (runUnstableCalls l2 (runUnstableCalls l1 c).2).1,
        (runUnstableCalls l2 (runUnstableCalls l1 c).2).2) := by
  induction l1 generalizing c with
  | nil => simp [runUnstableCalls]
  | cons hd tl ih =>
    cases hd with
    | hashOf o => simp [runUnstableCalls, ih]
    | eqOf a b => simp [runUnstableCalls, ih]

/-- C5.  Two successive `__hash__` calls on an `UnstableHash` object always
return different values; the stable-identity equality is reflexive,
symmetric and transitive on `UnstableHash` objects; and an equality query
after any sequence of intervening calls (in particular hash calls) yields
the same, state-independent answer `eqCall a b`. -/
theorem unstable_hash_properties :
    (∀ (o : UnstableHash) (c : Nat),
      (o.hashCall c).1 ≠ (o.hashCall (o.hashCall c).2).1) ∧
    (∀ a : UnstableHash, a.eqCall a = true) ∧
    (∀ a b : UnstableHash, a.eqCall b = b.eqCall a) ∧
    (∀ a b c' : UnstableHash,
      a.eqCall b = true → b.eqCall c' = true → a.eqCall c' = true) ∧
    (∀ (a b : UnstableHash) (calls : List UnstableCall) (c : Nat),
      ∃ pre, (runUnstableCalls (calls ++ [UnstableCall.eqOf a b]) c).1 =
        pre ++ [UnstableCallResult.equalled (a.eqCall b)]) := by
  refine ⟨?_, ?_, ?_, ?_, ?_⟩
  · intro o c
    simp [UnstableHash.hashCall]
  · intro a
    simp [UnstableHash.eqCall]
  · intro a b
    simp only [UnstableHash.eqCall]
    by_cases h : a._initial_hash = b._initial_hash
    · simp [h]
    · simp [h, Ne.symm h]
  · intro a b c' hab hbc
    simp only [UnstableHash.eqCall, beq_iff_eq] at hab hbc ⊢
    omega
  · intro a b calls c
    refine ⟨(runUnstableCalls calls c).1, ?_⟩
    rw [runUnstableCalls_append]
    simp [runUnstableCalls]

/-- C5 witness: at concrete objects with equal stable identities the
transitivity hypotheses hold and the theorem applies. -/
theorem unstable_hash_properties_witness :
    ((⟨7⟩ : UnstableHash).eqCall ⟨7⟩ = true) ∧
    ((⟨7⟩ : UnstableHash).eqCall ⟨7⟩ = true) ∧
    ((⟨7⟩ : UnstableHash).eqCall ⟨7⟩ = true) :=
  ⟨by decide, by decide,
    unstable_hash_properties.2.2.2.1 ⟨7⟩ ⟨7⟩ ⟨7⟩ (by decide) (by decide)⟩

/-- C6.  `super_caller_abuse` never propagates an exception: whatever the
inherited operation does on the two repeated calls and the wrong-arity call,
the behavior returns normally (`Except.ok`); when the operation is missing
or not callable it returns `None`; the first raised error is caught and the
error object itself becomes the return value; and when no call raises, the
return value is `None`. -/
theorem super_caller_abuse_spec {ε α : Type}
    (f? : Option (Nat → AbuseArgs → Except ε α)) :
    (∃ r, super_caller_abuse f? = Except.ok r) ∧
    (f? = none → super_caller_abuse f? = Except.ok AbuseReturn.noneVal) ∧
    (∀ f, f? = some f →
      (∀ e, f 0 AbuseArgs.originalArgs = Except.error e →
        super_caller_abuse f? = Except.ok (AbuseReturn.excVal e)) ∧
      (∀ x e, f 0 AbuseArgs.originalArgs = Except.ok x →
        f 1 AbuseArgs.originalArgs = Except.error e →
        super_caller_abuse f? = Except.ok (AbuseReturn.excVal e)) ∧
      (∀ x y e, f 0 AbuseArgs.originalArgs = Except.ok x →
        f 1 AbuseArgs.originalArgs = Except.ok y →
        f 2 AbuseArgs.wrongArity = Except.error e →
        super_caller_abuse f? = Except.ok (AbuseReturn.excVal e)) ∧
      (∀ x y z, f 0 AbuseArgs.originalArgs = Except.ok x →
        f 1 AbuseArgs.originalArgs = Except.ok y →
        f 2 AbuseArgs.wrongArity = Except.ok z →
        super_caller_abuse f? = Except.ok AbuseReturn.noneVal)) := by
  refine ⟨?_, ?_, ?_⟩
  · rw [super_caller_abuse]
    cases superAbuseBody f? with
    | error e => exact ⟨AbuseReturn.excVal e, rfl⟩
    | ok u => exact ⟨AbuseReturn.noneVal, rfl⟩
  · intro h
    subst h
    rfl
  · intro f hf
    subst hf
    refine ⟨?_, ?_, ?_, ?_⟩
    · intro e h0
      rw [super_caller_abuse, superAbuseBody, h0]
    · intro x e h0 h1
      rw [super_caller_abuse, superAbuseBody, h0, h1]
    · intro x y e h0 h1 h2
      rw [super_caller_abuse, superAbuseBody, h0, h1, h2]
    · intro x y z h0 h1 h2
      rw [super_caller_abuse, superAbuseBody, h0, h1, h2]

/-- C6 witness: a concrete inherited operation that raises on its very first
call; the behavior returns that error object as a value. -/
theorem super_caller_abuse_spec_witness :
    ((some (fun (_ : Nat) (_ : AbuseArgs) => (Except.error 7 : Except Nat Unit))) =
      some (fun (_ : Nat) (_ : AbuseArgs) => (Except.error 7 : Except Nat Unit)) ∧
      (fun (_ : Nat) (_ : AbuseArgs) => (Except.error 7 : Except Nat Unit)) 0
        AbuseArgs.originalArgs = Except.error 7) ∧
    super_caller_abuse
        (some (fun (_ : Nat) (_ : AbuseArgs) => (Except.error 7 : Except Nat Unit))) =
      Except.ok (AbuseReturn.excVal 7) :=
  ⟨⟨rfl, rfl⟩,
    ((super_caller_abuse_spec
      (some (fun (_ : Nat) (_ : AbuseArgs) => (Except.error 7 : Except Nat Unit)))).2.2
        (fun (_ : Nat) (_ : AbuseArgs) => Except.error 7) rfl).1 7 rfl⟩

/-! ## Lemmas for the variant-generation loop -/

set_option maxRecDepth 10000 in
theorem weird_names_nodup (hasDeps : Bool) :
    ((weird_combos hasDeps).map weirdInstanceName).Nodup := by
  have hcode : (((weird_combos hasDeps).map weirdInstanceName).map codeOfString).Nodup := by
    rw [List.map_map]
    cases hasDeps with
    | true => decide
    | false => decide
  exact hcode.of_map codeOfString

theorem dictFind_eq_none_iff {V : Type} (d : List (String × V)) (k : String) :
    dictFind d k = none ↔ k ∉ d.map Prod.fst := by
  induction d with
  | nil => simp [dictFind]
  | cons hd tl ih =>
    obtain ⟨k', v'⟩ := hd
    by_cases hk : k' = k
    · subst hk
      simp [dictFind]
    · simp [dictFind, hk, ih, Ne.symm hk]


theorem dictAssign_fresh {V : Type} (d : List (String × V)) (k : String) (v : V)
    (h : k ∉ d.map Prod.fst) : dictAssign d k v = d ++ [(k, v)] := by
  induction d with
  | nil => simp [dictAssign]
  | cons hd tl ih =>
    obtain ⟨k', v'⟩ := hd
    simp only [List.map_cons, List.mem_cons] at h
    push_neg at h
    rw [dictAssign, if_neg (fun hh => h.1 hh.symm), List.cons_append, ih h.2]

theorem weird_filterMap_keys {V : Type} (inst : WeirdCombo → Option V) :
    ∀ (combos : List WeirdCombo) (k : String),
      k ∈ (combos.filterMap
        (fun c => (inst c).map (fun v => (weirdInstanceName c, v)))).map Prod.fst →
      k ∈ combos.map weirdInstanceName := by
  intro combos
  induction combos with
  | nil =>
    intro k hk
    simp at hk
  | cons c0 rest ih =>
    intro k hk
    rw [List.filterMap_cons] at hk
    cases hinst : inst c0 with
    | none =>
      rw [hinst] at hk
      simp only [Option.map_none'] at hk
      exact List.mem_cons_of_mem _ (ih k hk)
    | some v =>
      rw [hinst] at hk
      simp only [Option.map_some', List.map_cons, List.mem_cons] at hk
      rcases hk with hk | hk
      · exact List.mem_cons.2 (Or.inl hk)
      · exact List.mem_cons_of_mem _ (ih k hk)

theorem weird_build_fold {V : Type} (inst : WeirdCombo → Option V) :
    ∀ (combos : List WeirdCombo) (acc : List (String × V)),
      (∀ c ∈ combos, weirdInstanceName c ∉ acc.map Prod.fst) →
      ((combos.map weirdInstanceName).Nodup) →
      combos.foldl
        (fun acc c =>
          match inst c with
          | none => acc
          | some v => dictAssign acc (weirdInstanceName c) v) acc =
      acc ++ combos.filterMap
        (fun c => (inst c).map (fun v => (weirdInstanceName c, v))) := by
  intro combos
  induction combos with
  | nil =>
    intro acc _ _
    simp
  | cons c0 rest ih =>
    intro acc hfresh hnd
    simp only [List.map_cons, List.nodup_cons] at hnd
    rw [List.foldl_cons, List.filterMap_cons]
    cases hinst : inst c0 with
    | none =>
      simp only [hinst, Option.map_none']
      exact ih acc (fun c hc => hfresh c (List.mem_cons_of_mem _ hc)) hnd.2
    | some v =>
      simp only [hinst, Option.map_some']
      rw [dictAssign_fresh acc _ v (hfresh c0 (List.mem_cons_self _ _))]
      rw [ih (acc ++ [(weirdInstanceName c0, v)]) ?_ hnd.2]
      · simp
      · intro c hc
        rw [List.map_append, List.mem_append]
        push_neg
        refine ⟨hfresh c (List.mem_cons_of_mem _ hc), ?_⟩
        simp only [List.map_cons, List.map_nil, List.mem_singleton]
        intro hname
        exact hnd.1 (hname ▸ List.mem_map.2 ⟨c, hc, rfl⟩)

theorem weird_filterMap_length {V : Type} (inst : WeirdCombo → Option V) :
    ∀ combos : List WeirdCombo,
      (combos.filterMap
        (fun c => (inst c).map (fun v => (weirdInstanceName c, v)))).length =
      (combos.filter (fun c => (inst c).isSome)).length := by
  intro combos
  induction combos with
  | nil => simp
  | cons c0 rest ih =>
    rw [List.filterMap_cons, List.filter_cons]
    cases hinst : inst c0 with
    | none => simpa [hinst, Option.map_none'] using ih
    | some v => simpa [hinst, Option.map_some'] using ih

theorem weird_dictFind_filterMap {V : Type} (inst : WeirdCombo → Option V) :
    ∀ (combos : List WeirdCombo) (c : WeirdCombo), c ∈ combos →
      ((combos.map weirdInstanceName).Nodup) →
      dictFind (combos.filterMap
        (fun c' => (inst c').map (fun v => (weirdInstanceName c', v))))
        (weirdInstanceName c) = inst c := by
  intro combos
  induction combos with
  | nil =>
    intro c hc
    simp at hc
  | cons c0 rest ih =>
    intro c hc hnd
    simp only [List.map_cons, List.nodup_cons] at hnd
    rw [List.filterMap_cons]
    rcases List.mem_cons.1 hc with hc0 | hcr
    · subst hc0
      cases hinst : inst c with
      | some v =>
        simp only [Option.map_some']
        simp [dictFind]
      | none =>
        simp only [Option.map_none']
        rw [dictFind_eq_none_iff]
        intro hmem
        exact hnd.1 (weird_filterMap_keys inst rest _ hmem)
    · have hne : weirdInstanceName c0 ≠ weirdInstanceName c := by
        intro heq
        exact hnd.1 (heq ▸ List.mem_map.2 ⟨c, hcr, rfl⟩)
      cases hinst : inst c0 with
      | some v =>
        simp only [Option.map_some']
        rw [dictFind, if_neg hne]
        exact ih c hcr hnd.2
      | none =>
        simp only [Option.map_none']
        exact ih c hcr hnd.2

/-- C7.  The generation loop never aborts: a combination whose instantiation
raises is skipped (after a warning) and the loop continues; the resulting
catalog is exactly the list of successfully instantiated combinations in
loop order — its size is the number of successes, and looking up the name of
any visited combination returns its instance when instantiation succeeded
and nothing when it failed, regardless of how many other combinations
failed. -/
theorem weird_catalog_exactly_successes {V : Type} (inst : WeirdCombo → Option V)
    (hasDeps : Bool) :
    build_tricky_weird_objects inst (weird_combos hasDeps) =
      (weird_combos hasDeps).filterMap
        (fun c => (inst c).map (fun v => (weirdInstanceName c, v))) ∧
    (build_tricky_weird_objects inst (weird_combos hasDeps)).length =
      ((weird_combos hasDeps).filter (fun c => (inst c).isSome)).length ∧
    (∀ c ∈ weird_combos hasDeps,
      dictFind (build_tricky_weird_objects inst (weird_combos hasDeps))
        (weirdInstanceName c) = inst c) := by
  have hnd := weird_names_nodup hasDeps
  have hbuild : build_tricky_weird_objects inst (weird_combos hasDeps) =
      (weird_combos hasDeps).filterMap
        (fun c => (inst c).map (fun v => (weirdInstanceName c, v))) := by
    rw [build_tricky_weird_objects]
    rw [weird_build_fold inst (weird_combos hasDeps) [] (by simp) hnd]
    simp
  refine ⟨hbuild, ?_, ?_⟩
  · rw [hbuild]
    exact weird_filterMap_length inst _
  · intro c hc
    rw [hbuild]
    exact weird_dictFind_filterMap inst _ c hc hnd

/-! ## Lemmas for `scenario_random_ops` -/

theorem scenario_aux_spec {K V δ : Type} [DecidableEq K]
    (O : AtomicDictOracle K V δ) (hashable : K → Bool) :
    ∀ (script : List (RandomOp K V)) (s : RandState K V δ),
      (scenario_random_ops_aux O hashable script s = true ↔
        ∀ s' ∈ scenario_states O hashable script s, lengthsAgree O s' = true) ∧
      (scenario_random_ops_aux O hashable script s = false →
        1 ≤ scenario_random_ops_steps O hashable script s ∧
        scenario_random_ops_steps O hashable script s ≤ script.length ∧
        (∃ s', (scenario_states O hashable script s).get?
            (scenario_random_ops_steps O hashable script s - 1) = some s' ∧
          lengthsAgree O s' = false) ∧
        (∀ j s'', j < scenario_random_ops_steps O hashable script s - 1 →
          (scenario_states O hashable script s).get? j = some s'' →
          lengthsAgree O s'' = true)) := by
  intro script
  induction script with
  | nil =>
    intro s
    constructor
    · constructor
      · intro _ s' hs'
        simp [scenario_states] at hs'
      · intro _
        rfl
    · intro hfalse
      simp [scenario_random_ops_aux] at hfalse
  | cons op rest ih =>
    intro s
    rw [scenario_random_ops_aux, scenario_random_ops_steps, scenario_states]
    by_cases hA : lengthsAgree O (scenario_step O hashable s op) = true
    · simp only [hA, if_true]
      constructor
      · rw [(ih (scenario_step O hashable s op)).1]
        constructor
        · intro hall s' hs'
          rcases List.mem_cons.1 hs' with hs' | hs'
          · rw [hs']
            exact hA
          · exact hall s' hs'
        · intro hall s' hs'
          exact hall s' (List.mem_cons_of_mem _ hs')
      · intro hfalse
        obtain ⟨h1, h2, ⟨s', hget, hdiv⟩, hall⟩ :=
          (ih (scenario_step O hashable s op)).2 hfalse
        obtain ⟨k, hk⟩ : ∃ k, scenario_random_ops_steps O hashable rest
            (scenario_step O hashable s op) = k + 1 :=
          ⟨_, (Nat.succ_pred_eq_of_pos h1).symm⟩
        refine ⟨by omega, by simpa using Nat.succ_le_succ h2, ⟨s', ?_, hdiv⟩, ?_⟩
        · rw [hk] at hget ⊢
          simpa using hget
        · intro j s'' hj hget'
          rw [hk] at hj
          cases j with
          | zero =>
            simp only [List.get?_cons_zero, Option.some_inj] at hget'
            rw [← hget']
            exact hA
          | succ jj =>
            rw [List.get?_cons_succ] at hget'
            refine hall jj s'' ?_ hget'
            rw [hk]
            omega
    · have hA' : lengthsAgree O (scenario_step O hashable s op) = false :=
        Bool.eq_false_iff.2 hA
      simp only [hA', Bool.false_eq_true, if_false]
      constructor
      · constructor
        · intro habs
          simp at habs
        · intro hall
          exact absurd (hall _ (List.mem_cons_self _ _)) hA
      · intro _
        refine ⟨le_refl 1, by simp, ⟨scenario_step O hashable s op, by simp, hA'⟩, ?_⟩
        intro j s'' hj _
        omega

/-- C9.  `scenario_random_ops` keeps a standard dict as ground truth: a step
whose operation succeeds on both the subject and the model applies the very
same operation to both; after every executed step it compares `len(d)` with
`len(model)`; it returns `True` exactly when every step of the sequence left
the two lengths equal, and on a `False` return it has stopped at the first
step whose post-state lengths diverge, executing no further operations. -/
theorem scenario_random_ops_spec {K V δ : Type} [DecidableEq K]
    (O : AtomicDictOracle K V δ) (hashable : K → Bool)
    (script : List (RandomOp K V)) :
    (∀ (s : RandState K V δ) (k : K) (v : V) (d1 : δ) (m1 : List (K × V)),
      O.setOp s.d k v = Except.ok d1 →
      pyDictSet hashable s.model k v = Except.ok m1 →
      scenario_step O hashable s (RandomOp.setitem k v) = ⟨d1, m1⟩) ∧
    (∀ (s : RandState K V δ) (k : K) (d1 : δ) (m1 : List (K × V)),
      O.delOp s.d k = Except.ok d1 →
      pyDictDel hashable s.model k = Except.ok m1 →
      scenario_step O hashable s (RandomOp.delitem k) = ⟨d1, m1⟩) ∧
    (scenario_random_ops O hashable script = true ↔
      ∀ s' ∈ scenario_states O hashable script ⟨O.fresh, []⟩,
        lengthsAgree O s' = true) ∧
    (scenario_random_ops O hashable script = false →
      1 ≤ scenario_random_ops_steps O hashable script ⟨O.fresh, []⟩ ∧
      scenario_random_ops_steps O hashable script ⟨O.fresh, []⟩ ≤ script.length ∧
      (∃ s', (scenario_states O hashable script ⟨O.fresh, []⟩).get?
          (scenario_random_ops_steps O hashable script ⟨O.fresh, []⟩ - 1) = some s' ∧
        lengthsAgree O s' = false) ∧
      (∀ j s'', j < scenario_random_ops_steps O hashable script ⟨O.fresh, []⟩ - 1 →
        (scenario_states O hashable script ⟨O.fresh, []⟩).get? j = some s'' →
        lengthsAgree O s'' = true)) := by
  refine ⟨?_, ?_, ?_, ?_⟩
  · intro s k v d1 m1 hset hmset
    simp [scenario_step, hset, hmset]
  · intro s k d1 m1 hdel hmdel
    simp [scenario_step, hdel, hmdel]
  · exact (scenario_aux_spec O hashable script ⟨O.fresh, []⟩).1
  · exact (scenario_aux_spec O hashable script ⟨O.fresh, []⟩).2

/-- C9 witness: a concrete subject oracle that reports length `5` while the
model holds one entry; the run returns `False` after its first step and the
divergence characterization applies. -/
theorem scenario_random_ops_spec_witness :
    (scenario_random_ops
      (⟨(), fun _ _ => Except.error DictExc.keyError, fun _ _ _ => Except.ok (),
        fun _ _ => Except.error DictExc.keyError, fun _ => 5⟩ :
        AtomicDictOracle Nat Nat Unit)
      (fun _ => true) [RandomOp.setitem 0 0] = false) ∧
    (1 ≤ scenario_random_ops_steps
      (⟨(), fun _ _ => Except.error DictExc.keyError, fun _ _ _ => Except.ok (),
        fun _ _ => Except.error DictExc.keyError, fun _ => 5⟩ :
        AtomicDictOracle Nat Nat Unit)
      (fun _ => true) [RandomOp.setitem 0 0]
      ⟨AtomicDictOracle.fresh (⟨(), fun _ _ => Except.error DictExc.keyError,
        fun _ _ _ => Except.ok (), fun _ _ => Except.error DictExc.keyError,
        fun _ => 5⟩ : AtomicDictOracle Nat Nat Unit), []⟩ ∧
      scenario_random_ops_steps
        (⟨(), fun _ _ => Except.error DictExc.keyError, fun _ _ _ => Except.ok (),
          fun _ _ => Except.error DictExc.keyError, fun _ => 5⟩ :
          AtomicDictOracle Nat Nat Unit)
        (fun _ => true) [RandomOp.setitem 0 0]
        ⟨AtomicDictOracle.fresh (⟨(), fun _ _ => Except.error DictExc.keyError,
          fun _ _ _ => Except.ok (), fun _ _ => Except.error DictExc.keyError,
          fun _ => 5⟩ : AtomicDictOracle Nat Nat Unit), []⟩ ≤
        [RandomOp.setitem (0 : Nat) (0 : Nat)].length ∧
      (∃ s', (scenario_states
          (⟨(), fun _ _ => Except.error DictExc.keyError, fun _ _ _ => Except.ok (),
            fun _ _ => Except.error DictExc.keyError, fun _ => 5⟩ :
            AtomicDictOracle Nat Nat Unit)
          (fun _ => true) [RandomOp.setitem 0 0]
          ⟨AtomicDictOracle.fresh (⟨(), fun _ _ => Except.error DictExc.keyError,
            fun _ _ _ => Except.ok (), fun _ _ => Except.error DictExc.keyError,
            fun _ => 5⟩ : AtomicDictOracle Nat Nat Unit), []⟩).get?
          (scenario_random_ops_steps
            (⟨(), fun _ _ => Except.error DictExc.keyError, fun _ _ _ => Except.ok (),
              fun _ _ => Except.error DictExc.keyError, fun _ => 5⟩ :
              AtomicDictOracle Nat Nat Unit)
            (fun _ => true) [RandomOp.setitem 0 0]
            ⟨AtomicDictOracle.fresh (⟨(), fun _ _ => Except.error DictExc.keyError,
              fun _ _ _ => Except.ok (), fun _ _ => Except.error DictExc.keyError,
              fun _ => 5⟩ : AtomicDictOracle Nat Nat Unit), []⟩ - 1) = some s' ∧
        lengthsAgree
          (⟨(), fun _ _ => Except.error DictExc.keyError, fun _ _ _ => Except.ok (),
            fun _ _ => Except.error DictExc.keyError, fun _ => 5⟩ :
            AtomicDictOracle Nat Nat Unit) s' = false) ∧
      (∀ j s'', j < scenario_random_ops_steps
          (⟨(), fun _ _ => Except.error DictExc.keyError, fun _ _ _ => Except.ok (),
            fun _ _ => Except.error DictExc.keyError, fun _ => 5⟩ :
            AtomicDictOracle Nat Nat Unit)
          (fun _ => true) [RandomOp.setitem 0 0]
          ⟨AtomicDictOracle.fresh (⟨(), fun _ _ => Except.error DictExc.keyError,
            fun _ _ _ => Except.ok (), fun _ _ => Except.error DictExc.keyError,
            fun _ => 5⟩ : AtomicDictOracle Nat Nat Unit), []⟩ - 1 →
        (scenario_states
          (⟨(), fun _ _ => Except.error DictExc.keyError, fun _ _ _ => Except.ok (),
            fun _ _ => Except.error DictExc.keyError, fun _ => 5⟩ :
            AtomicDictOracle Nat Nat Unit)
          (fun _ => true) [RandomOp.setitem 0 0]
          ⟨AtomicDictOracle.fresh (⟨(), fun _ _ => Except.error DictExc.keyError,
            fun _ _ _ => Except.ok (), fun _ _ => Except.error DictExc.keyError,
            fun _ => 5⟩ : AtomicDictOracle Nat Nat Unit), []⟩).get? j = some s'' →
        lengthsAgree
          (⟨(), fun _ _ => Except.error DictExc.keyError, fun _ _ _ => Except.ok (),
            fun _ _ => Except.error DictExc.keyError, fun _ => 5⟩ :
            AtomicDictOracle Nat Nat Unit) s'' = true)) :=
  ⟨rfl,
    (scenario_random_ops_spec
      (⟨(), fun _ _ => Except.error DictExc.keyError, fun _ _ _ => Except.ok (),
        fun _ _ => Except.error DictExc.keyError, fun _ => 5⟩ :
        AtomicDictOracle Nat Nat Unit)
      (fun _ => true) [RandomOp.setitem 0 0]).2.2.2 rfl⟩

set_option maxRecDepth 2000 in
/-- C7 witness: the catalog built with an all-succeeding instantiation oracle
maps the first combination's name to its instance. -/
theorem weird_catalog_exactly_successes_witness :
    ((⟨"AtomicInt64", "get", "raise_ValueError"⟩ : WeirdCombo) ∈ weird_combos true) ∧
    dictFind (build_tricky_weird_objects (fun _ => some (0 : Nat)) (weird_combos true))
      (weirdInstanceName ⟨"AtomicInt64", "get", "raise_ValueError"⟩) =
      (fun _ : WeirdCombo => some (0 : Nat)) ⟨"AtomicInt64", "get", "raise_ValueError"⟩ :=
  ⟨by decide,
    (weird_catalog_exactly_successes (fun _ => some (0 : Nat)) true).2.2
      ⟨"AtomicInt64", "get", "raise_ValueError"⟩ (by decide)⟩

/-- C3 witness for the amended statement: the first lifecycle-race join is in
the scenario's join list and carries the `1.0` second timeout. -/
theorem scenario_join_structure_witness :
    (JoinCall.withTimeout 1 ∈ race_condition_ref_vs_gc_joins) ∧
    JoinCall.withTimeout 1 = JoinCall.withTimeout 1 :=
  ⟨List.mem_cons_self _ _,
    scenario_join_structure.1 (JoinCall.withTimeout 1) (List.mem_cons_self _ _)⟩

/-! ## Lemmas for `make_wrong_typer` -/

theorem storeLookup_eq_none_iff {α : Type} (l : List (Nat × PyMutable α)) (a : Nat) :
    storeLookup l a = none ↔ a ∉ l.map Prod.fst := by
  induction l with
  | nil => simp [storeLookup]
  | cons hd tl ih =>
    obtain ⟨a', o'⟩ := hd
    by_cases ha : a' = a
    · subst ha
      simp [storeLookup]
    · simp [storeLookup, ha, ih, Ne.symm ha]

theorem mem_of_storeLookup {α : Type} {l : List (Nat × PyMutable α)} {a : Nat}
    {o : PyMutable α} (h : storeLookup l a = some o) : (a, o) ∈ l := by
  induction l with
  | nil => simp [storeLookup] at h
  | cons hd tl ih =>
    obtain ⟨a', o'⟩ := hd
    by_cases ha : a' = a
    · subst ha
      simp [storeLookup] at h
      simp [h]
    · simp [storeLookup, ha] at h
      exact List.mem_cons_of_mem _ (ih h)

theorem storeLookup_append_of_some {α : Type} {l : List (Nat × PyMutable α)}
    {a : Nat} {o : PyMutable α} (l2 : List (Nat × PyMutable α))
    (h : storeLookup l a = some o) : storeLookup (l ++ l2) a = some o := by
  induction l with
  | nil => simp [storeLookup] at h
  | cons hd tl ih =>
    obtain ⟨a', o'⟩ := hd
    by_cases ha : a' = a
    · subst ha
      simp [storeLookup] at h ⊢
      exact h
    · simp [storeLookup, ha] at h ⊢
      exact ih h

theorem storeLookup_append_of_none {α : Type} {l : List (Nat × PyMutable α)}
    {a : Nat} (l2 : List (Nat × PyMutable α)) (h : storeLookup l a = none) :
    storeLookup (l ++ l2) a = storeLookup l2 a := by
  induction l with
  | nil => simp
  | cons hd tl ih =>
    obtain ⟨a', o'⟩ := hd
    by_cases ha : a' = a
    · simp [storeLookup, ha] at h
    · simp [storeLookup, ha] at h ⊢
      exact ih h

theorem storeWrite_lookup_ne {α : Type} (l : List (Nat × PyMutable α))
    {a a' : Nat} (o : PyMutable α) (h : a ≠ a') :
    storeLookup (storeWrite l a' o) a = storeLookup l a := by
  induction l with
  | nil => simp [storeWrite, storeLookup]
  | cons hd tl ih =>
    obtain ⟨a0, o0⟩ := hd
    by_cases h0 : a0 = a'
    · have hne : ¬ (a0 = a) := fun hh => h (hh ▸ h0)
      rw [storeWrite, if_pos h0, storeLookup, storeLookup, if_neg hne, if_neg hne]
    · simp only [storeWrite, if_neg h0]
      by_cases h1 : a0 = a
      · subst h1
        simp [storeLookup]
      · simp [storeLookup, h1, ih]

theorem storeWrite_keys {α : Type} (l : List (Nat × PyMutable α)) (a : Nat)
    (o : PyMutable α) : (storeWrite l a o).map Prod.fst = l.map Prod.fst := by
  induction l with
  | nil => simp [storeWrite]
  | cons hd tl ih =>
    obtain ⟨a0, o0⟩ := hd
    by_cases h0 : a0 = a
    · simp [storeWrite, h0]
    · simp [storeWrite, h0, ih]

theorem PyHeap_read_lt_next {α : Type} {h : PyHeap α} {a : Nat} {o : PyMutable α}
    (hwf : h.WF) (hr : h.read a = some o) : a < h.nextAddr :=
  hwf.1 (a, o) (mem_of_storeLookup hr)

theorem PyHeap_alloc_WF {α : Type} {h : PyHeap α} (o : PyMutable α) (hwf : h.WF) :
    (h.alloc o).2.WF := by
  constructor
  · intro p hp
    rw [PyHeap.alloc] at hp
    simp only at hp
    rcases List.mem_append.1 hp with hp | hp
    · exact Nat.lt_succ_of_lt (hwf.1 p hp)
    · simp only [List.mem_singleton] at hp
      rw [hp]
      exact Nat.lt_succ_self _
  · rw [PyHeap.alloc]
    simp only [List.map_append]
    rw [List.nodup_append]
    refine ⟨hwf.2, by simp, ?_⟩
    intro x hx hx2
    simp at hx2
    subst hx2
    have : ∃ p ∈ h.store, p.1 = h.nextAddr := by
      rcases List.mem_map.1 hx with ⟨p, hp, hpx⟩
      exact ⟨p, hp, hpx⟩
    obtain ⟨p, hp, hpx⟩ := this
    exact absurd (hwf.1 p hp) (by omega)

theorem PyHeap_write_WF {α : Type} {h : PyHeap α} (a : Nat) (o : PyMutable α)
    (hwf : h.WF) : (h.write a o).WF := by
  constructor
  · intro p hp
    rw [PyHeap.write] at hp
    have hkey : p.1 ∈ (storeWrite h.store a o).map Prod.fst :=
      List.mem_map.2 ⟨p, hp, rfl⟩
    rw [storeWrite_keys] at hkey
    rcases List.mem_map.1 hkey with ⟨q, hq, hqe⟩
    rw [PyHeap.write]
    simp only
    rw [← hqe]
    exact hwf.1 q hq
  · rw [PyHeap.write]
    simp only
    rw [storeWrite_keys]
    exact hwf.2

theorem PyHeap_read_alloc_self {α : Type} {h : PyHeap α} (o : PyMutable α)
    (hwf : h.WF) : (h.alloc o).2.read (h.alloc o).1 = some o := by
  rw [PyHeap.alloc, PyHeap.read]
  simp only
  have hnone : storeLookup h.store h.nextAddr = none := by
    rw [storeLookup_eq_none_iff]
    intro hmem
    rcases List.mem_map.1 hmem with ⟨p, hp, hpe⟩
    exact absurd (hwf.1 p hp) (by omega)
  rw [storeLookup_append_of_none _ hnone]
  simp [storeLookup]

theorem PyHeap_read_alloc_preserve {α : Type} {h : PyHeap α} {a : Nat}
    {o' : PyMutable α} (o : PyMutable α) (hr : h.read a = some o') :
    (h.alloc o).2.read a = some o' := by
  rw [PyHeap.alloc, PyHeap.read]
  simp only
  exact storeLookup_append_of_some _ hr

theorem PyHeap_read_write_ne {α : Type} (h : PyHeap α) {a a' : Nat}
    (o : PyMutable α) (hne : a ≠ a') : (h.write a' o).read a = h.read a := by
  rw [PyHeap.write, PyHeap.read, PyHeap.read]
  simp only
  exact storeWrite_lookup_ne h.store o hne

/-- C10.  The closure produced by `make_wrong_typer(return_value)` never
exposes the configured mutable object: a configured `list`/`dict`/`set`
(a heap reference) is returned as a freshly allocated copy — a new address
holding the same contents, the configured object left untouched — and even
after a caller mutates the returned copy in place, the configured object is
unchanged and a further invocation again returns a fresh copy of the
original contents; the marker string `"self"` returns the receiving
instance itself; every other configured value is returned unchanged. -/
theorem wrong_typer_protects_configured_value {α : Type}
    (selfv : PyValue α) (h : PyHeap α) :
    (wrong_typer (PyValue.strVal "self") selfv h = (selfv, h)) ∧
    (∀ s : String, s ≠ "self" →
      wrong_typer (PyValue.strVal s) selfv h = (PyValue.strVal s, h)) ∧
    (wrong_typer PyValue.noneVal selfv h = (PyValue.noneVal, h)) ∧
    (∀ n : Int, wrong_typer (PyValue.intVal n) selfv h = (PyValue.intVal n, h)) ∧
    (∀ x : α, wrong_typer (PyValue.otherVal x) selfv h = (PyValue.otherVal x, h)) ∧
    (∀ (a : Nat) (o : PyMutable α), h.WF → h.read a = some o →
      ∃ (a' : Nat) (h' : PyHeap α),
        wrong_typer (PyValue.objRef a) selfv h = (PyValue.objRef a', h') ∧
        a' ≠ a ∧
        h'.read a' = some o ∧
        h'.read a = some o ∧
        h'.WF ∧
        (∀ o2 : PyMutable α,
          ((h'.write a' o2).read a = some o) ∧
          ∃ (a'' : Nat) (h'' : PyHeap α),
            wrong_typer (PyValue.objRef a) selfv (h'.write a' o2) =
              (PyValue.objRef a'', h'') ∧
            a'' ≠ a' ∧ a'' ≠ a ∧ h''.read a'' = some o ∧ h''.read a = some o)) := by
  refine ⟨rfl, ?_, rfl, fun n => rfl, fun x => rfl, ?_⟩
  · intro s hs
    rw [wrong_typer, if_neg hs]
  · intro a o hwf hread
    have hlt : a < h.nextAddr := PyHeap_read_lt_next hwf hread
    refine ⟨h.nextAddr, (h.alloc o).2, ?_, by omega, ?_, ?_, PyHeap_alloc_WF o hwf, ?_⟩
    · rw [wrong_typer, hread]
      rfl
    · exact PyHeap_read_alloc_self o hwf
    · exact PyHeap_read_alloc_preserve o hread
    · intro o2
      have hread1 : (h.alloc o).2.read a = some o :=
        PyHeap_read_alloc_preserve o hread
      have hwf1 : (h.alloc o).2.WF := PyHeap_alloc_WF o hwf
      have hane : a ≠ h.nextAddr := by omega
      have hread2 : (((h.alloc o).2.write h.nextAddr o2)).read a = some o := by
        rw [PyHeap_read_write_ne _ o2 hane]
        exact hread1
      refine ⟨hread2, ?_⟩
      have hwf2 : (((h.alloc o).2.write h.nextAddr o2)).WF :=
        PyHeap_write_WF _ o2 hwf1
      have hnext2 : (((h.alloc o).2.write h.nextAddr o2)).nextAddr =
          h.nextAddr + 1 := rfl
      have hlt2 : a < (((h.alloc o).2.write h.nextAddr o2)).nextAddr := by
        rw [hnext2]
        omega
      refine ⟨(((h.alloc o).2.write h.nextAddr o2)).nextAddr,
        ((((h.alloc o).2.write h.nextAddr o2)).alloc o).2, ?_, ?_, ?_, ?_, ?_⟩
      · rw [wrong_typer, hread2]
        rfl
      · rw [hnext2]
        omega
      · rw [hnext2]
        omega
      · exact PyHeap_read_alloc_self o hwf2
      · exact PyHeap_read_alloc_preserve o hread2

/-- C10 witness: a one-object heap; the theorem's hypotheses hold by direct
evaluation and the copy guarantees follow at that heap. -/
theorem wrong_typer_protects_configured_value_witness :
    ((⟨[(0, PyMutable.listObj [1, 2])], 1⟩ : PyHeap Nat).WF ∧
      (⟨[(0, PyMutable.listObj [1, 2])], 1⟩ : PyHeap Nat).read 0 =
        some (PyMutable.listObj [1, 2])) ∧
    (∃ (a' : Nat) (h' : PyHeap Nat),
      wrong_typer (PyValue.objRef 0) PyValue.noneVal
          (⟨[(0, PyMutable.listObj [1, 2])], 1⟩ : PyHeap Nat) =
        (PyValue.objRef a', h') ∧
      a' ≠ 0 ∧
      h'.read a' = some (PyMutable.listObj [1, 2]) ∧
      h'.read 0 = some (PyMutable.listObj [1, 2]) ∧
      h'.WF ∧
      (∀ o2 : PyMutable Nat,
        ((h'.write a' o2).read 0 = some (PyMutable.listObj [1, 2])) ∧
        ∃ (a'' : Nat) (h'' : PyHeap Nat),
          wrong_typer (PyValue.objRef 0) PyValue.noneVal (h'.write a' o2) =
            (PyValue.objRef a'', h'') ∧
          a'' ≠ a' ∧ a'' ≠ 0 ∧
          h''.read a'' = some (PyMutable.listObj [1, 2]) ∧
          h''.read 0 = some (PyMutable.listObj [1, 2]))) :=
  ⟨⟨⟨by decide, by decide⟩, rfl⟩,
    (wrong_typer_protects_configured_value PyValue.noneVal
      (⟨[(0, PyMutable.listObj [1, 2])], 1⟩ : PyHeap Nat)).2.2.2.2.2
      0 (PyMutable.listObj [1, 2]) ⟨by decide, by decide⟩ rfl⟩
